import Mathlib

/-!
Verification development for the `iksolver` single-header C library
(`include/iksolver.h`): a FABRIK-style 2-D inverse-kinematics solver over a
tree of joints.  The definitions below are a shallow embedding of the C code
into Lean, with `float` idealised as `ℝ` (the spec's "exact arithmetic"
reading), pointers to joints replaced by a functional rose tree, the
effected-joint parent chain represented as a zipper (a list of ancestor
frames), and the global path stack represented as an explicit `List ℕ` of
child indices threaded through the two passes.  Undefined behaviour (the
forward pass dereferencing the NULL result of popping an empty stack) is
modelled by `Option`.
-/

/-- Mirrors `ik_vec2`: vector type for representing joint positions. -/
@[ext]
structure ik_vec2 where
  x : ℝ
  y : ℝ

/-- Mirrors the C helper `length`: length of vector `(x, y)`. -/
noncomputable def length (x y : ℝ) : ℝ := Real.sqrt (x * x + y * y)

/-- Euclidean distance between two positions, written with `length` exactly as
the C code measures segment lengths. -/
noncomputable def vdist (a b : ik_vec2) : ℝ := length (a.x - b.x) (a.y - b.y)

/-- Mirrors `struct ik_matrix`: entries of the rotation matrix,
`C = cos |angle|`, `S = sin |angle|`, `P = sgn angle`. -/
structure ik_matrix where
  C : ℝ
  S : ℝ
  P : ℝ

/-- Mirrors `ik_joint`: a joint with its world position, the length of the
segment connecting it to its parent, and its attached children.  The C
flexible-array child slots are modelled as the list of attached children
(the header declares that operating on a tree with unattached slots is
undefined behaviour). -/
inductive ik_joint where
  | mk (pos : ik_vec2) (len : ℝ) (children : List ik_joint)

def ik_joint.pos : ik_joint → ik_vec2
  | .mk p _ _ => p

def ik_joint.len : ik_joint → ℝ
  | .mk _ l _ => l

def ik_joint.children : ik_joint → List ik_joint
  | .mk _ _ cs => cs

@[simp] theorem ik_joint.pos_mk (p : ik_vec2) (l : ℝ) (cs : List ik_joint) :
    (ik_joint.mk p l cs).pos = p := rfl

@[simp] theorem ik_joint.len_mk (p : ik_vec2) (l : ℝ) (cs : List ik_joint) :
    (ik_joint.mk p l cs).len = l := rfl

@[simp] theorem ik_joint.children_mk (p : ik_vec2) (l : ℝ) (cs : List ik_joint) :
    (ik_joint.mk p l cs).children = cs := rfl

/-- The single position update of `ik_align_branch_precalc`: translate by
`offset`, then rotate around `pivot` by the matrix
`[[C, -P*S], [P*S, C]]`. -/
noncomputable def applyAlignPos (pivot : ik_vec2) (mat : ik_matrix) (offset : ik_vec2)
    (p : ik_vec2) : ik_vec2 :=
  ⟨mat.C * (p.x + offset.x - pivot.x) + (-mat.P * mat.S) * (p.y + offset.y - pivot.y)
     + pivot.x,
   mat.P * mat.S * (p.x + offset.x - pivot.x) + mat.C * (p.y + offset.y - pivot.y)
     + pivot.y⟩

mutual

/-- Mirrors `ik_align_branch_precalc`: applies the translate-then-rotate update
to every joint of the branch, recursing into all children. -/
noncomputable def ik_align_branch_precalc (pivot : ik_vec2) (mat : ik_matrix)
    (offset : ik_vec2) : ik_joint → ik_joint
  | .mk p l cs => .mk (applyAlignPos pivot mat offset p) l
      (ik_align_branch_precalc_list pivot mat offset cs)

/-- The child loop of `ik_align_branch_precalc`. -/
noncomputable def ik_align_branch_precalc_list (pivot : ik_vec2) (mat : ik_matrix)
    (offset : ik_vec2) : List ik_joint → List ik_joint
  | [] => []
  | c :: cs => ik_align_branch_precalc pivot mat offset c ::
      ik_align_branch_precalc_list pivot mat offset cs

end

/-- The rotation-matrix computation performed at the top of `ik_align_branch`:
`C = dot(from,to)/(|from|·|to|)` (Lean's division-by-zero convention stands in
for the C code's undefined `0/0` when a vector is degenerate),
`S = sqrt(max 0 (1 - C²))`, `P = sgn(cross(from,to))`. -/
noncomputable def ik_branch_matrix (f t : ik_vec2) : ik_matrix :=
  let C_denom := length f.x f.y * length t.x t.y
  let C := (f.x * t.x + f.y * t.y) / C_denom
  let S2 := 1 - C * C
  ⟨C, Real.sqrt (if 0 < S2 then S2 else 0),
   if 0 < f.x * t.y - f.y * t.x then 1 else -1⟩

/-- Mirrors `ik_align_branch`: computes the rotation matrix from `f`/`t` and the
offset `t - f`, and applies them to the whole branch with
`root->parent->position` as pivot.  Since the embedding has no parent
pointers, the pivot (the branch root's parent's position at call time) is
passed explicitly as `parentPos`. -/
noncomputable def ik_align_branch (parentPos : ik_vec2) (f t : ik_vec2)
    (root : ik_joint) : ik_joint :=
  ik_align_branch_precalc parentPos (ik_branch_matrix f t) ⟨t.x - f.x, t.y - f.y⟩ root

mutual

/-- Mirrors `ik_align_branch_only_translate`: translates the whole branch by
`(offset_x, offset_y)`; used when the branch's parent is the tree root. -/
noncomputable def ik_align_branch_only_translate (ox oy : ℝ) : ik_joint → ik_joint
  | .mk p l cs => .mk ⟨p.x + ox, p.y + oy⟩ l
      (ik_align_branch_only_translate_list ox oy cs)

/-- The child loop of `ik_align_branch_only_translate`. -/
noncomputable def ik_align_branch_only_translate_list (ox oy : ℝ) :
    List ik_joint → List ik_joint
  | [] => []
  | c :: cs => ik_align_branch_only_translate ox oy c ::
      ik_align_branch_only_translate_list ox oy cs

end

/-- Mirrors `ik_move_within_dist` as a pure position update: move the joint's
position to lie `distance` from the target along the line from the target
through the current position, snapping onto the target if the direction
vector has length zero. -/
noncomputable def ik_move_within_dist (p : ik_vec2) (distance : ℝ)
    (target : ik_vec2) : ik_vec2 :=
  if length (p.x - target.x) (p.y - target.y) = 0 then target
  else ⟨target.x + distance * (p.x - target.x) / length (p.x - target.x) (p.y - target.y),
        target.y + distance * (p.y - target.y) / length (p.x - target.x) (p.y - target.y)⟩

mutual

/-- Mirrors `ik_translate_relative`: translates the whole branch by `(dx, dy)`. -/
noncomputable def ik_translate_relative (dx dy : ℝ) : ik_joint → ik_joint
  | .mk p l cs => .mk ⟨p.x + dx, p.y + dy⟩ l (ik_translate_relative_list dx dy cs)

/-- The child loop of `ik_translate_relative`. -/
noncomputable def ik_translate_relative_list (dx dy : ℝ) :
    List ik_joint → List ik_joint
  | [] => []
  | c :: cs => ik_translate_relative dx dy c :: ik_translate_relative_list dx dy cs

end

/-- Mirrors `ik_translate`: translates the tree by setting the root position to
`(x, y)` (a relative translation by the difference). -/
noncomputable def ik_translate (root : ik_joint) (x y : ℝ) : ik_joint :=
  ik_translate_relative (x - root.pos.x) (y - root.pos.y) root

/-- Mirrors `ik_attach_joint`'s loop over the parent's child slots: find the
first `none` (NULL) slot and store the child there.  `none` as result is
`IK_ERROR` (no free slot found); `some` carries the updated slot list
(`IK_OK`).  Slots are generic so the theorems are about the slot discipline
itself. -/
def ik_attach_joint {α : Type} (child : α) : List (Option α) → Option (List (Option α))
  | [] => none
  | none :: rest => some (some child :: rest)
  | some c :: rest => (ik_attach_joint child rest).map (fun r => some c :: r)

/-- The full effect of `ik_attach_joint` on the mutable state it touches: the
parent's child-slot array and the child's parent back-reference (modelled as
an optional parent identifier).  Returns `(status, slots, childParent)` with
`status` standing for `IK_OK` / `IK_ERROR`. -/
def ik_attach_joint_state {α β : Type} (child : α) (parentId : β)
    (slots : List (Option α)) (childParent : Option β) :
    Bool × List (Option α) × Option β :=
  match ik_attach_joint child slots with
  | none => (false, slots, childParent)
  | some s => (true, s, some parentId)

/-- One ancestor frame of the effected joint: the ancestor's position, its
segment length, and its other children split around the (unique) child that
leads down toward the effected joint.  A tree plus an effected joint is
represented as the effected subtree plus the list of its ancestor frames,
innermost (parent of the effected joint) first. -/
structure Frame where
  pos : ik_vec2
  len : ℝ
  pre : List ik_joint
  post : List ik_joint

/-- Number of children of the joint a frame describes (the path child
included). -/
def Frame.nChildren (f : Frame) : ℕ := f.pre.length + f.post.length + 1

/-- Rebuild the joint a frame describes around its path child. -/
def Frame.plug (f : Frame) (child : ik_joint) : ik_joint :=
  .mk f.pos f.len (f.pre ++ child :: f.post)

/-- Rebuild the whole tree from the effected subtree and its ancestor frames. -/
def plugFrames : ik_joint → List Frame → ik_joint
  | j, [] => j
  | j, f :: rest => plugFrames (f.plug j) rest

/-- The branch alignment a moved joint applies to each of its non-path
children, as performed identically in `ik_reach_back` and
`ik_reach_forward`: a rotation alignment relative to the moved joint's
parent when it has one (`parentPos = some q`, with `from`/`to` the old/new
position of the moved joint relative to `q`, and the moved joint's new
position as pivot), and a pure translation by the joint's displacement when
the moved joint is the tree root (`parentPos = none`). -/
noncomputable def alignChildFun (parentPos : Option ik_vec2) (org newPos : ik_vec2) :
    ik_joint → ik_joint :=
  match parentPos with
  | some q => ik_align_branch newPos ⟨org.x - q.x, org.y - q.y⟩
      ⟨newPos.x - q.x, newPos.y - q.y⟩
  | none => ik_align_branch_only_translate (newPos.x - org.x) (newPos.y - org.y)

/-- Apply `g` to every element of the list except the one at index `i` (the
path child, which the C loops skip via the `child != path_child` test). -/
def alignExcept (g : ik_joint → ik_joint) (i : ℕ) (cs : List ik_joint) :
    List ik_joint :=
  match cs, i with
  | [], _ => []
  | c :: cs, 0 => c :: cs.map g
  | c :: cs, n + 1 => g c :: alignExcept g n cs

/-- The processing `ik_reach_back` performs on the effected joint itself (the
first call of the pass, where the path stack is empty, so `ik_stack_top`
returns NULL and every child is treated as a non-path sibling): record the
original position, move the joint within `distance = 0` of the target, and
align all child branches when there is more than one. -/
noncomputable def ik_reach_back_first (effected : ik_joint)
    (parentPos : Option ik_vec2) (target : ik_vec2) : ik_joint :=
  let org := effected.pos
  let newPos := ik_move_within_dist effected.pos 0 target
  .mk newPos effected.len
    (if effected.children.length > 1 then
      effected.children.map (alignChildFun parentPos org newPos)
    else effected.children)

/-- The recursive walk of `ik_reach_back` from the effected joint's parent up
to the tree root.  `child` is the already-processed subtree hanging off the
current frame; the stack already contains the push for `child` (the C code
pushes a joint just before recursing into its parent).  At each frame the
joint is moved within the child's segment length of the child's new
position, non-path child branches are aligned (rotation when the joint has
a parent, translation only at the tree root), and the joint's index among
its parent's children is pushed when that parent has more than one child.
Returns the rebuilt tree, the root's original position, and the stack. -/
noncomputable def ik_reach_back : ik_joint → List Frame → List ℕ →
    ik_joint × ik_vec2 × List ℕ
  | j, [], s => (j, j.pos, s)
  | j, f :: rest, s =>
    let org := f.pos
    let newPos := ik_move_within_dist f.pos j.len j.pos
    let parentPos : Option ik_vec2 :=
      match rest with
      | [] => none
      | f' :: _ => some f'.pos
    let g := alignChildFun parentPos org newPos
    let pre' := if f.nChildren > 1 then f.pre.map g else f.pre
    let post' := if f.nChildren > 1 then f.post.map g else f.post
    let node : ik_joint := .mk newPos f.len (pre' ++ j :: post')
    match rest with
    | [] => (node, org, s)
    | f' :: rest' =>
      ik_reach_back node (f' :: rest')
        (if f'.pre.length + f'.post.length > 0 then f'.pre.length :: s else s)

/-- Mirrors `ik_reach_forward`.  `parentPos` is the current joint's parent's
position (`none` at the tree root); for recursive calls it coincides with
`target`, exactly as `root->parent->position` does in the C code.  The
stack holds, top first, the child indices recorded during reach-back.  At a
joint with more than one child the stack is popped to find the path child;
popping an empty stack yields NULL in C and the subsequent recursion
dereferences it, which the embedding models as `none`.  A popped index that
does not denote a child of the current joint (impossible in a well-formed
solve) likewise corresponds to the traversal escaping the subtree and is
modelled as `none`. -/
noncomputable def ik_reach_forward : ik_joint → ℝ → ik_vec2 → Option ik_vec2 →
    List ℕ → Option (ik_joint × List ℕ)
  | .mk p l cs, distance, target, parentPos, s =>
    let org := p
    let newPos := ik_move_within_dist p distance target
    match cs, s with
    | [], s => some (.mk newPos l [], s)
    | [c], s =>
      match ik_reach_forward c c.len newPos (some newPos) s with
      | none => none
      | some (c', s') => some (.mk newPos l [c'], s')
    | _ :: _ :: _, [] => none
    | c₁ :: c₂ :: cs', i :: s =>
      if h : i < (c₁ :: c₂ :: cs').length then
        let g := alignChildFun parentPos org newPos
        let c := (c₁ :: c₂ :: cs').get ⟨i, h⟩
        match ik_reach_forward c c.len newPos (some newPos) s with
        | none => none
        | some (c', s') =>
          some (.mk newPos l ((alignExcept g i (c₁ :: c₂ :: cs')).set i c'), s')
      else none
termination_by j _ _ _ _ => sizeOf j
decreasing_by
  · simp only [ik_joint.mk.sizeOf_spec]
    have := List.sizeOf_lt_of_mem (List.mem_cons_self c [])
    omega
  · simp only [ik_joint.mk.sizeOf_spec]
    have := List.sizeOf_lt_of_mem (List.get_mem (c₁ :: c₂ :: cs') i h)
    omega

/-- The reach-back phase of `ik_solve`: process the effected joint (empty
stack, so all its children are non-path siblings), then walk the ancestor
frames, seeding the stack with the effected joint's child index when its
parent has more than one child.  Returns the post-backward tree, the root's
original position and the stack left for the forward pass. -/
noncomputable def ik_solve_back (effected : ik_joint) (frames : List Frame)
    (target : ik_vec2) : ik_joint × ik_vec2 × List ℕ :=
  match frames with
  | [] => (ik_reach_back_first effected none target, effected.pos, [])
  | f :: rest =>
    ik_reach_back (ik_reach_back_first effected (some f.pos) target) (f :: rest)
      (if f.pre.length + f.post.length > 0 then [f.pre.length] else [])

/-- Mirrors `ik_solve`: reach back from the effected joint to the target, then
reach forward from the root toward its original position.  The C function
returns 1 unconditionally; the embedding returns the final tree and stack,
or `none` when the forward pass dereferences a NULL path child. -/
noncomputable def ik_solve (effected : ik_joint) (frames : List Frame)
    (target_x target_y : ℝ) : Option (ik_joint × List ℕ) :=
  let r := ik_solve_back effected frames ⟨target_x, target_y⟩
  ik_reach_forward r.1 0 r.2.1 none r.2.2

mutual

/-- All joint positions in a subtree, in depth-first preorder. -/
def ik_joint.positions : ik_joint → List ik_vec2
  | .mk p _ cs => p :: ik_joint.positions_list cs

/-- Positions of a forest of subtrees. -/
def ik_joint.positions_list : List ik_joint → List ik_vec2
  | [] => []
  | c :: cs => ik_joint.positions c ++ ik_joint.positions_list cs

end

/-- The length-preservation invariant of the spec: every joint with a parent
lies at distance exactly its segment length from that parent.  Stated on a
subtree: every child of every node is at distance its own `len` from the
node. -/
inductive LengthInvariant : ik_joint → Prop
  | mk (p : ik_vec2) (l : ℝ) (cs : List ik_joint) :
      (∀ c ∈ cs, vdist c.pos p = c.len) →
      (∀ c ∈ cs, LengthInvariant c) →
      LengthInvariant (.mk p l cs)

/-- The weakened invariant that actually survives one `ik_solve` call: every
joint with a parent is at distance its segment length from the parent,
except that a joint hit by the degenerate snap branch of
`ik_move_within_dist` may sit exactly on its parent instead. -/
inductive WeakLengthInvariant : ik_joint → Prop
  | mk (p : ik_vec2) (l : ℝ) (cs : List ik_joint) :
      (∀ c ∈ cs, vdist c.pos p = c.len ∨ c.pos = p) →
      (∀ c ∈ cs, WeakLengthInvariant c) →
      WeakLengthInvariant (.mk p l cs)

/-- Shape of a tree/stack pair as left by the reach-back pass, as needed by the
reach-forward pass: along the path the (top of the) stack selects, every
non-path child is at the correct distance from its (already backward-moved)
parent with an intact subtree, path children have nonnegative segment
lengths, and nothing is required at a branching joint facing an empty stack
(reach-forward dereferences NULL there, i.e. the run is modelled as
`none`). -/
inductive ForwardReady : ik_joint → List ℕ → Prop
  | leaf (p : ik_vec2) (l : ℝ) (s : List ℕ) : ForwardReady (.mk p l []) s
  | single (p : ik_vec2) (l : ℝ) (c : ik_joint) (s : List ℕ) :
      0 ≤ c.len → ForwardReady c s → ForwardReady (.mk p l [c]) s
  | multiEmpty (p : ik_vec2) (l : ℝ) (cs : List ik_joint) :
      2 ≤ cs.length → ForwardReady (.mk p l cs) []
  | multi (p : ik_vec2) (l : ℝ) (cs : List ik_joint) (i : ℕ) (rest : List ℕ) :
      2 ≤ cs.length →
      (∀ k, k ≠ i → ∀ c, cs.get? k = some c →
        vdist c.pos p = c.len ∧ LengthInvariant c) →
      (∀ c, cs.get? i = some c → 0 ≤ c.len) →
      (∀ c, cs.get? i = some c → ForwardReady c rest) →
      ForwardReady (.mk p l cs) (i :: rest)

/-- The pieces of the pre-solve length invariant that the ancestor frames of
the effected joint contribute: each frame's non-path children are at the
right distance from it with intact subtrees, and every non-root frame's own
segment length is nonnegative. -/
def FramesInvariant : List Frame → Prop
  | [] => True
  | f :: rest =>
      (∀ c ∈ f.pre ++ f.post, vdist c.pos f.pos = c.len ∧ LengthInvariant c) ∧
      (rest = [] ∨ 0 ≤ f.len) ∧ FramesInvariant rest

/- ------------------------------------------------------------------ -/
/- Theorems.                                                           -/
/- ------------------------------------------------------------------ -/

/-- Structural induction over `ik_joint` with the membership-based hypothesis
for children. -/
theorem ik_joint.strongInduction (P : ik_joint → Prop)
    (h : ∀ p l cs, (∀ c ∈ cs, P c) → P (.mk p l cs)) : ∀ j, P j
  | .mk p l cs => h p l cs (fun c hc => ik_joint.strongInduction P h c)
termination_by j => sizeOf j
decreasing_by
  simp only [ik_joint.mk.sizeOf_spec]
  have := List.sizeOf_lt_of_mem hc
  omega

theorem length_nonneg (x y : ℝ) : 0 ≤ length x y := Real.sqrt_nonneg _

theorem length_mul_self (x y : ℝ) : length x y * length x y = x * x + y * y :=
  Real.mul_self_sqrt (add_nonneg (mul_self_nonneg x) (mul_self_nonneg y))

theorem length_eq_zero_iff (x y : ℝ) : length x y = 0 ↔ x = 0 ∧ y = 0 := by
  rw [length, Real.sqrt_eq_zero']
  constructor
  · intro h
    constructor <;> nlinarith [h]
  · rintro ⟨rfl, rfl⟩
    norm_num

theorem length_eval (x y r : ℝ) (hr : 0 ≤ r) (hxy : x * x + y * y = r * r) :
    length x y = r := by
  rw [length, hxy, show r * r = r ^ 2 by ring, Real.sqrt_sq hr]

theorem vdist_nonneg (a b : ik_vec2) : 0 ≤ vdist a b := length_nonneg _ _

theorem vdist_eq_zero_iff (a b : ik_vec2) : vdist a b = 0 ↔ a = b := by
  rw [vdist, length_eq_zero_iff]
  constructor
  · rintro ⟨hx, hy⟩
    ext <;> linarith
  · rintro rfl
    norm_num

theorem vdist_translate (a b : ik_vec2) (ox oy : ℝ) :
    vdist ⟨a.x + ox, a.y + oy⟩ ⟨b.x + ox, b.y + oy⟩ = vdist a b := by
  simp only [vdist]
  ring_nf

/-- Moving within distance `0` of a target always lands exactly on the target,
whichever branch of `ik_move_within_dist` is taken. -/
theorem ik_move_within_dist_zero (p t : ik_vec2) : ik_move_within_dist p 0 t = t := by
  rw [ik_move_within_dist]
  by_cases h : length (p.x - t.x) (p.y - t.y) = 0 <;> simp [h]

/-- With a nonnegative distance, `ik_move_within_dist` lands exactly `d` away
from the target, or exactly on the target in the degenerate snap case. -/
theorem ik_move_within_dist_dist_or_snap (p t : ik_vec2) (d : ℝ) (hd : 0 ≤ d) :
    vdist (ik_move_within_dist p d t) t = d ∨ ik_move_within_dist p d t = t := by
  rw [ik_move_within_dist]
  by_cases h : length (p.x - t.x) (p.y - t.y) = 0
  · simp [h]
  · left
    simp only [h, if_false]
    have hsq := length_mul_self (p.x - t.x) (p.y - t.y)
    rw [vdist]
    apply length_eval _ _ _ hd
    field_simp
    nlinarith [hsq]

@[simp] theorem ik_branch_matrix_C (f t : ik_vec2) :
    (ik_branch_matrix f t).C =
      (f.x * t.x + f.y * t.y) / (length f.x f.y * length t.x t.y) := rfl

@[simp] theorem ik_branch_matrix_P (f t : ik_vec2) :
    (ik_branch_matrix f t).P = if 0 < f.x * t.y - f.y * t.x then 1 else -1 := rfl

theorem ik_branch_matrix_S (f t : ik_vec2) :
    (ik_branch_matrix f t).S =
      Real.sqrt (if 0 < 1 - (ik_branch_matrix f t).C * (ik_branch_matrix f t).C
        then 1 - (ik_branch_matrix f t).C * (ik_branch_matrix f t).C else 0) := rfl

/-- The bound `C * C ≤ 1` always holds for the alignment matrix: by
Cauchy–Schwarz when the denominator is nonzero, and because Lean's division
by zero yields `C = 0` in the degenerate case the C code leaves undefined. -/
theorem ik_branch_matrix_C_sq_le_one (f t : ik_vec2) :
    (ik_branch_matrix f t).C * (ik_branch_matrix f t).C ≤ 1 := by
  rw [ik_branch_matrix_C]
  set d := length f.x f.y * length t.x t.y with hd
  by_cases h0 : d = 0
  · rw [h0]
    norm_num
  · have hdpos : 0 < d :=
      lt_of_le_of_ne (mul_nonneg (length_nonneg _ _) (length_nonneg _ _)) (Ne.symm h0)
    rw [div_mul_div_comm, div_le_one (by positivity)]
    have hdd : d * d = (f.x * f.x + f.y * f.y) * (t.x * t.x + t.y * t.y) := by
      rw [hd, show length f.x f.y * length t.x t.y * (length f.x f.y * length t.x t.y)
          = (length f.x f.y * length f.x f.y) * (length t.x t.y * length t.x t.y) from by
            ring,
        length_mul_self, length_mul_self]
    rw [hdd]
    nlinarith [sq_nonneg (f.x * t.y - f.y * t.x)]

theorem ik_branch_matrix_CS (f t : ik_vec2) :
    (ik_branch_matrix f t).C * (ik_branch_matrix f t).C +
      (ik_branch_matrix f t).S * (ik_branch_matrix f t).S = 1 := by
  have hC2 := ik_branch_matrix_C_sq_le_one f t
  rw [ik_branch_matrix_S]
  set C := (ik_branch_matrix f t).C with hC
  by_cases hS : 0 < 1 - C * C
  · rw [if_pos hS, Real.mul_self_sqrt (le_of_lt hS)]
    ring
  · rw [if_neg hS, Real.sqrt_zero]
    push_neg at hS
    have : C * C = 1 := le_antisymm hC2 (by linarith)
    rw [this]
    ring

theorem ik_branch_matrix_P_sq (f t : ik_vec2) :
    (ik_branch_matrix f t).P * (ik_branch_matrix f t).P = 1 := by
  rw [ik_branch_matrix_P]
  by_cases h : 0 < f.x * t.y - f.y * t.x <;> simp [h]

/-- The precalculated alignment transform is a rigid motion whenever its matrix
is orthonormal: it preserves all pairwise distances. -/
theorem applyAlignPos_vdist (pivot offset : ik_vec2) (m : ik_matrix)
    (h1 : m.C * m.C + m.S * m.S = 1) (h2 : m.P * m.P = 1) (p q : ik_vec2) :
    vdist (applyAlignPos pivot m offset p) (applyAlignPos pivot m offset q) =
      vdist p q := by
  have key : m.C * m.C + m.P * m.S * (m.P * m.S) = 1 := by
    rw [show m.P * m.S * (m.P * m.S) = m.P * m.P * (m.S * m.S) from by ring, h2, one_mul]
    exact h1
  simp only [vdist, applyAlignPos, length]
  congr 1
  linear_combination
    ((p.x - q.x) * (p.x - q.x) + (p.y - q.y) * (p.y - q.y)) * key

/-- With pivot `n` and offset `n - o`, the alignment transform maps `o` to `n`:
this is exactly the configuration in which both reaching passes call
`ik_align_branch_precalc` (pivot = the moved joint's new position, offset =
its displacement). -/
theorem applyAlignPos_anchor (m : ik_matrix) (o n : ik_vec2) :
    applyAlignPos n m ⟨n.x - o.x, n.y - o.y⟩ o = n := by
  simp only [applyAlignPos]
  ext <;> ring

theorem ik_align_branch_precalc_list_eq_map (pivot : ik_vec2) (m : ik_matrix)
    (offset : ik_vec2) (cs : List ik_joint) :
    ik_align_branch_precalc_list pivot m offset cs =
      cs.map (ik_align_branch_precalc pivot m offset) := by
  induction cs with
  | nil => rw [ik_align_branch_precalc_list, List.map_nil]
  | cons c cs ih => rw [ik_align_branch_precalc_list, ih, List.map_cons]

theorem ik_align_branch_precalc_mk (pivot : ik_vec2) (m : ik_matrix)
    (offset : ik_vec2) (p : ik_vec2) (l : ℝ) (cs : List ik_joint) :
    ik_align_branch_precalc pivot m offset (.mk p l cs) =
      .mk (applyAlignPos pivot m offset p) l
        (cs.map (ik_align_branch_precalc pivot m offset)) := by
  rw [ik_align_branch_precalc, ik_align_branch_precalc_list_eq_map]

@[simp] theorem ik_align_branch_precalc_pos (pivot : ik_vec2) (m : ik_matrix)
    (offset : ik_vec2) (j : ik_joint) :
    (ik_align_branch_precalc pivot m offset j).pos = applyAlignPos pivot m offset j.pos := by
  cases j with
  | mk p l cs => rw [ik_align_branch_precalc_mk, ik_joint.pos_mk, ik_joint.pos_mk]

@[simp] theorem ik_align_branch_precalc_len (pivot : ik_vec2) (m : ik_matrix)
    (offset : ik_vec2) (j : ik_joint) :
    (ik_align_branch_precalc pivot m offset j).len = j.len := by
  cases j with
  | mk p l cs => rw [ik_align_branch_precalc_mk, ik_joint.len_mk, ik_joint.len_mk]

theorem ik_align_branch_only_translate_list_eq_map (ox oy : ℝ) (cs : List ik_joint) :
    ik_align_branch_only_translate_list ox oy cs =
      cs.map (ik_align_branch_only_translate ox oy) := by
  induction cs with
  | nil => rw [ik_align_branch_only_translate_list, List.map_nil]
  | cons c cs ih => rw [ik_align_branch_only_translate_list, ih, List.map_cons]

theorem ik_align_branch_only_translate_mk (ox oy : ℝ) (p : ik_vec2) (l : ℝ)
    (cs : List ik_joint) :
    ik_align_branch_only_translate ox oy (.mk p l cs) =
      .mk ⟨p.x + ox, p.y + oy⟩ l (cs.map (ik_align_branch_only_translate ox oy)) := by
  rw [ik_align_branch_only_translate, ik_align_branch_only_translate_list_eq_map]

@[simp] theorem ik_align_branch_only_translate_pos (ox oy : ℝ) (j : ik_joint) :
    (ik_align_branch_only_translate ox oy j).pos = ⟨j.pos.x + ox, j.pos.y + oy⟩ := by
  cases j with
  | mk p l cs => rw [ik_align_branch_only_translate_mk, ik_joint.pos_mk, ik_joint.pos_mk]

@[simp] theorem ik_align_branch_only_translate_len (ox oy : ℝ) (j : ik_joint) :
    (ik_align_branch_only_translate ox oy j).len = j.len := by
  cases j with
  | mk p l cs => rw [ik_align_branch_only_translate_mk, ik_joint.len_mk, ik_joint.len_mk]

/-- An arbitrary position-wise transform `A` that preserves pairwise distances
carries the length invariant across a subtree mapped by it.  `mapped` is the
statement that `j'` arises from `j` by applying `A` to every position while
keeping lengths and tree structure; both `ik_align_branch_precalc` and
`ik_align_branch_only_translate` fit it. -/
theorem LengthInvariant_of_isometry (A : ik_vec2 → ik_vec2)
    (hA : ∀ p q, vdist (A p) (A q) = vdist p q)
    (F : ik_joint → ik_joint)
    (hF : ∀ p l cs, F (.mk p l cs) = .mk (A p) l (cs.map F)) :
    ∀ j, LengthInvariant j → LengthInvariant (F j) := by
  intro j
  induction j using ik_joint.strongInduction with
  | h p l cs ih =>
    intro hinv
    cases hinv with
    | mk _ _ _ hdist hrec =>
      rw [hF]
      refine LengthInvariant.mk _ _ _ ?_ ?_
      · intro c' hc'
        obtain ⟨c, hc, rfl⟩ := List.mem_map.mp hc'
        have hpos : (F c).pos = A c.pos := by
          cases c with
          | mk pc lc csc => rw [hF, ik_joint.pos_mk, ik_joint.pos_mk]
        have hlen : (F c).len = c.len := by
          cases c with
          | mk pc lc csc => rw [hF, ik_joint.len_mk, ik_joint.len_mk]
        rw [hpos, hlen, hA]
        exact hdist c hc
      · intro c' hc'
        obtain ⟨c, hc, rfl⟩ := List.mem_map.mp hc'
        exact ih c hc (hrec c hc)

/-- Distances are preserved by `ik_align_branch`'s transform: the matrix it
computes is always orthonormal in the real-number embedding. -/
theorem ik_align_branch_apply_vdist (pivot f t : ik_vec2) (p q : ik_vec2) :
    vdist (applyAlignPos pivot (ik_branch_matrix f t) ⟨t.x - f.x, t.y - f.y⟩ p)
        (applyAlignPos pivot (ik_branch_matrix f t) ⟨t.x - f.x, t.y - f.y⟩ q) =
      vdist p q :=
  applyAlignPos_vdist _ _ _ (ik_branch_matrix_CS f t) (ik_branch_matrix_P_sq f t) p q

/-- The sibling alignment performed by the reaching passes is a rigid motion
mapping the moved joint's old position onto its new one: there is a
distance-preserving position transform `A` with `A org = nv` that
`alignChildFun pp org nv` applies to every joint of the branch. -/
theorem alignChildFun_spec (pp : Option ik_vec2) (org nv : ik_vec2) :
    ∃ A : ik_vec2 → ik_vec2,
      (∀ p q, vdist (A p) (A q) = vdist p q) ∧ A org = nv ∧
      (∀ p l cs, alignChildFun pp org nv (.mk p l cs) =
        .mk (A p) l (cs.map (alignChildFun pp org nv))) := by
  cases pp with
  | none =>
    refine ⟨fun p => ⟨p.x + (nv.x - org.x), p.y + (nv.y - org.y)⟩, ?_, ?_, ?_⟩
    · intro p q
      exact vdist_translate p q _ _
    · ext <;> ring
    · intro p l cs
      rw [alignChildFun, ik_align_branch_only_translate_mk]
  | some q =>
    refine ⟨applyAlignPos nv
      (ik_branch_matrix ⟨org.x - q.x, org.y - q.y⟩ ⟨nv.x - q.x, nv.y - q.y⟩)
      ⟨nv.x - org.x, nv.y - org.y⟩, ?_, ?_, ?_⟩
    · intro p q'
      have h := ik_align_branch_apply_vdist nv ⟨org.x - q.x, org.y - q.y⟩
        ⟨nv.x - q.x, nv.y - q.y⟩ p q'
      simpa using h
    · have h := applyAlignPos_anchor
        (ik_branch_matrix ⟨org.x - q.x, org.y - q.y⟩ ⟨nv.x - q.x, nv.y - q.y⟩) org nv
      simpa using h
    · intro p l cs
      have halign : ik_align_branch nv (⟨org.x - q.x, org.y - q.y⟩ : ik_vec2)
          (⟨nv.x - q.x, nv.y - q.y⟩ : ik_vec2) =
          ik_align_branch_precalc nv
            (ik_branch_matrix ⟨org.x - q.x, org.y - q.y⟩ ⟨nv.x - q.x, nv.y - q.y⟩)
            ⟨nv.x - org.x, nv.y - org.y⟩ := by
        funext c
        rw [ik_align_branch]
        congr 1
        ext <;> simp <;> ring
      rw [alignChildFun, halign, ik_align_branch_precalc_mk]

theorem alignChildFun_len (pp : Option ik_vec2) (org nv : ik_vec2) (j : ik_joint) :
    (alignChildFun pp org nv j).len = j.len := by
  obtain ⟨A, _, _, hF⟩ := alignChildFun_spec pp org nv
  cases j with
  | mk p l cs => rw [hF, ik_joint.len_mk, ik_joint.len_mk]

theorem alignChildFun_vdist_parent (pp : Option ik_vec2) (org nv : ik_vec2)
    (j : ik_joint) :
    vdist (alignChildFun pp org nv j).pos nv = vdist j.pos org := by
  obtain ⟨A, hiso, hanchor, hF⟩ := alignChildFun_spec pp org nv
  cases j with
  | mk p l cs =>
    rw [hF, ik_joint.pos_mk, ik_joint.pos_mk, ← hanchor, hiso]

theorem alignChildFun_LengthInvariant (pp : Option ik_vec2) (org nv : ik_vec2)
    (j : ik_joint) (h : LengthInvariant j) :
    LengthInvariant (alignChildFun pp org nv j) := by
  obtain ⟨A, hiso, _, hF⟩ := alignChildFun_spec pp org nv
  exact LengthInvariant_of_isometry A hiso _ hF j h

theorem ik_translate_relative_list_eq_map (dx dy : ℝ) (cs : List ik_joint) :
    ik_translate_relative_list dx dy cs = cs.map (ik_translate_relative dx dy) := by
  induction cs with
  | nil => rw [ik_translate_relative_list, List.map_nil]
  | cons c cs ih => rw [ik_translate_relative_list, ih, List.map_cons]

theorem ik_translate_relative_mk (dx dy : ℝ) (p : ik_vec2) (l : ℝ)
    (cs : List ik_joint) :
    ik_translate_relative dx dy (.mk p l cs) =
      .mk ⟨p.x + dx, p.y + dy⟩ l (cs.map (ik_translate_relative dx dy)) := by
  rw [ik_translate_relative, ik_translate_relative_list_eq_map]

theorem ik_translate_relative_LengthInvariant (dx dy : ℝ) (j : ik_joint)
    (h : LengthInvariant j) : LengthInvariant (ik_translate_relative dx dy j) :=
  LengthInvariant_of_isometry (fun p => ⟨p.x + dx, p.y + dy⟩)
    (fun p q => vdist_translate p q dx dy) _ (ik_translate_relative_mk dx dy) j h

theorem ik_translate_LengthInvariant (x y : ℝ) (j : ik_joint)
    (h : LengthInvariant j) : LengthInvariant (ik_translate j x y) :=
  ik_translate_relative_LengthInvariant _ _ j h

/-- Claim C10: translating a whole tree by `(dx, dy)` and then by `(-dx, -dy)`
restores every joint's position exactly. -/
theorem ik_translate_relative_roundtrip (dx dy : ℝ) (j : ik_joint) :
    ik_translate_relative (-dx) (-dy) (ik_translate_relative dx dy j) = j := by
  induction j using ik_joint.strongInduction with
  | h p l cs ih =>
    rw [ik_translate_relative_mk, ik_translate_relative_mk, List.map_map]
    have h1 : (⟨(⟨p.x + dx, p.y + dy⟩ : ik_vec2).x + -dx,
        (⟨p.x + dx, p.y + dy⟩ : ik_vec2).y + -dy⟩ : ik_vec2) = p := by
      ext <;> simp
    rw [h1]
    congr 1
    have h2 : cs.map (ik_translate_relative (-dx) (-dy) ∘ ik_translate_relative dx dy)
        = cs.map id := List.map_congr_left (fun c hc => ih c hc)
    rw [h2, List.map_id]

/-- Claim C6: with a nonnegative distance, `ik_move_within_dist` places the
joint exactly `distance` from the target, on the ray from the target through
the joint's current position (a nonnegative multiple of the direction
vector); when the joint coincides exactly with the target, it snaps onto the
target. -/
theorem ik_move_within_dist_contract (p t : ik_vec2) (d : ℝ) (hd : 0 ≤ d) :
    (p = t → ik_move_within_dist p d t = t) ∧
    (p ≠ t →
      vdist (ik_move_within_dist p d t) t = d ∧
      (ik_move_within_dist p d t).x - t.x = d / vdist p t * (p.x - t.x) ∧
      (ik_move_within_dist p d t).y - t.y = d / vdist p t * (p.y - t.y) ∧
      0 ≤ d / vdist p t) := by
  constructor
  · rintro rfl
    rw [ik_move_within_dist, if_pos]
    rw [show p.x - p.x = 0 from by ring, show p.y - p.y = 0 from by ring]
    exact (length_eq_zero_iff 0 0).mpr ⟨rfl, rfl⟩
  · intro hne
    have hn : length (p.x - t.x) (p.y - t.y) ≠ 0 := by
      intro h0
      exact hne ((vdist_eq_zero_iff p t).mp h0)
    have hvd : vdist p t = length (p.x - t.x) (p.y - t.y) := rfl
    rw [ik_move_within_dist, if_neg hn]
    refine ⟨?_, ?_, ?_, ?_⟩
    · rw [vdist]
      apply length_eval _ _ _ hd
      have hsq := length_mul_self (p.x - t.x) (p.y - t.y)
      field_simp
      nlinarith [hsq]
    · rw [hvd]
      simp only
      ring
    · rw [hvd]
      simp only
      ring
    · rw [hvd]
      exact div_nonneg hd (length_nonneg _ _)

theorem ik_attach_joint_full (child : α) (slots : List (Option α))
    (h : ∀ s ∈ slots, s ≠ none) : ik_attach_joint child slots = none := by
  induction slots with
  | nil => rfl
  | cons s rest ih =>
    match s with
    | none => exact absurd rfl (h none (List.mem_cons_self _ _))
    | some c =>
      rw [ik_attach_joint, ih (fun s hs => h s (List.mem_cons_of_mem _ hs)),
        Option.map_none']

theorem ik_attach_joint_free (child : α) (slots : List (Option α))
    (h : none ∈ slots) :
    ∃ p₁ p₂, slots = p₁ ++ none :: p₂ ∧ (∀ s ∈ p₁, s ≠ none) ∧
      ik_attach_joint child slots = some (p₁ ++ some child :: p₂) := by
  induction slots with
  | nil => exact absurd h (List.not_mem_nil _)
  | cons s rest ih =>
    match s with
    | none =>
      refine ⟨[], rest, rfl, by intro s hs; exact absurd hs (List.not_mem_nil _), ?_⟩
      rw [ik_attach_joint]
      rfl
    | some c =>
      have hrest : none ∈ rest := by
        rcases List.mem_cons.mp h with h0 | h0
        · exact absurd h0.symm (Option.some_ne_none c)
        · exact h0
      obtain ⟨p₁, p₂, heq, hfull, hat⟩ := ih hrest
      refine ⟨some c :: p₁, p₂, by rw [heq, List.cons_append], ?_, ?_⟩
      · intro s hs
        rcases List.mem_cons.mp hs with h0 | h0
        · rw [h0]
          exact Option.some_ne_none c
        · exact hfull s h0
      · rw [ik_attach_joint, hat, Option.map_some', List.cons_append]

/-- Claim C8: attaching to a parent whose child slots are all occupied fails
with `IK_ERROR` and modifies neither the parent's slots nor the child's
parent reference; attaching to a parent with a free slot stores the child
in the first free slot (all earlier slots being occupied), sets the child's
parent back-reference, and returns `IK_OK`. -/
theorem ik_attach_joint_contract {α β : Type} (child : α) (parentId : β)
    (slots : List (Option α)) (childParent : Option β) :
    ((∀ s ∈ slots, s ≠ none) →
      ik_attach_joint_state child parentId slots childParent =
        (false, slots, childParent)) ∧
    (none ∈ slots →
      ∃ p₁ p₂, slots = p₁ ++ none :: p₂ ∧ (∀ s ∈ p₁, s ≠ none) ∧
        ik_attach_joint_state child parentId slots childParent =
          (true, p₁ ++ some child :: p₂, some parentId)) := by
  constructor
  · intro h
    rw [ik_attach_joint_state, ik_attach_joint_full child slots h]
  · intro h
    obtain ⟨p₁, p₂, heq, hfull, hat⟩ := ik_attach_joint_free child slots h
    exact ⟨p₁, p₂, heq, hfull, by rw [ik_attach_joint_state, hat]⟩

/-- A transform that rewrites every node as `A` on positions maps the preorder
position list through `A`. -/
theorem positions_map_of_nodewise (A : ik_vec2 → ik_vec2) (F : ik_joint → ik_joint)
    (hF : ∀ p l cs, F (.mk p l cs) = .mk (A p) l (cs.map F)) :
    ∀ j, (F j).positions = j.positions.map A := by
  intro j
  induction j using ik_joint.strongInduction with
  | h p l cs ih =>
    have haux : ∀ ds, (∀ c ∈ ds, (F c).positions = c.positions.map A) →
        ik_joint.positions_list (ds.map F) =
          (ik_joint.positions_list ds).map A := by
      intro ds
      induction ds with
      | nil =>
        intro _
        simp [ik_joint.positions_list]
      | cons c ds ihd =>
        intro hds
        simp only [List.map_cons, ik_joint.positions_list, List.map_append]
        rw [hds c (List.mem_cons_self c ds),
          ihd (fun c' hc' => hds c' (List.mem_cons_of_mem _ hc'))]
    rw [hF]
    simp only [ik_joint.positions, List.map_cons]
    rw [haux cs ih]

theorem ik_align_branch_positions (pv f t : ik_vec2) (j : ik_joint) :
    (ik_align_branch pv f t j).positions =
      j.positions.map (applyAlignPos pv (ik_branch_matrix f t) ⟨t.x - f.x, t.y - f.y⟩) := by
  have hF : ∀ p l cs, ik_align_branch pv f t (.mk p l cs) =
      .mk (applyAlignPos pv (ik_branch_matrix f t) ⟨t.x - f.x, t.y - f.y⟩ p) l
        (cs.map (ik_align_branch pv f t)) := by
    intro p l cs
    rw [ik_align_branch, ik_align_branch_precalc_mk]
    exact rfl
  exact positions_map_of_nodewise _ _ hF j

theorem ik_align_branch_only_translate_positions (ox oy : ℝ) (j : ik_joint) :
    (ik_align_branch_only_translate ox oy j).positions =
      j.positions.map (fun p => ⟨p.x + ox, p.y + oy⟩) :=
  positions_map_of_nodewise _ _ (ik_align_branch_only_translate_mk ox oy) j

theorem alignExcept_length (g : ik_joint → ik_joint) :
    ∀ (i : ℕ) (cs : List ik_joint), (alignExcept g i cs).length = cs.length
  | i, [] => by cases i <;> rfl
  | 0, c :: cs => by
    rw [alignExcept]
    simp
  | n + 1, c :: cs => by
    rw [alignExcept, List.length_cons, List.length_cons, alignExcept_length g n cs]

theorem alignExcept_get?_self (g : ik_joint → ik_joint) :
    ∀ (i : ℕ) (cs : List ik_joint), (alignExcept g i cs).get? i = cs.get? i
  | _, [] => by rw [alignExcept]
  | 0, c :: cs => by
    rw [alignExcept]
    rfl
  | n + 1, c :: cs => by
    rw [alignExcept, List.get?_cons_succ, List.get?_cons_succ,
      alignExcept_get?_self g n cs]

theorem alignExcept_get?_ne (g : ik_joint → ik_joint) :
    ∀ (i k : ℕ), k ≠ i → ∀ (cs : List ik_joint),
      (alignExcept g i cs).get? k = (cs.get? k).map g
  | _, _, _, [] => by rw [alignExcept]; simp
  | 0, 0, hk, c :: cs => absurd rfl hk
  | 0, k + 1, _, c :: cs => by
    rw [alignExcept, List.get?_cons_succ, List.get?_cons_succ, List.get?_map]
  | n + 1, 0, _, c :: cs => by
    rw [alignExcept, List.get?_cons_zero, List.get?_cons_zero, Option.map_some']
  | n + 1, k + 1, hk, c :: cs => by
    rw [alignExcept, List.get?_cons_succ, List.get?_cons_succ,
      alignExcept_get?_ne g n k (fun h => hk (by rw [h])) cs]

theorem LengthInvariant.toWeak (j : ik_joint) (h : LengthInvariant j) :
    WeakLengthInvariant j := by
  induction j using ik_joint.strongInduction with
  | h p l cs ih =>
    cases h with
    | mk _ _ _ hdist hrec =>
      exact WeakLengthInvariant.mk p l cs (fun c hc => Or.inl (hdist c hc))
        (fun c hc => ih c hc (hrec c hc))

/-- A subtree untouched by reach-back satisfies `ForwardReady` with the empty
stack whenever it satisfies the length invariant. -/
theorem ForwardReady_of_LengthInvariant (j : ik_joint) (h : LengthInvariant j) :
    ForwardReady j [] := by
  induction j using ik_joint.strongInduction with
  | h p l cs ih =>
    cases h with
    | mk _ _ _ hdist hrec =>
      match cs, hdist, hrec, ih with
      | [], _, _, _ => exact ForwardReady.leaf p l []
      | [c], hdist, hrec, ih =>
        refine ForwardReady.single p l c [] ?_
          (ih c (List.mem_cons_self c []) (hrec c (List.mem_cons_self c [])))
        rw [← hdist c (List.mem_cons_self c [])]
        exact vdist_nonneg _ _
      | c₁ :: c₂ :: cs, _, _, _ =>
        exact ForwardReady.multiEmpty p l _ (by simp)

/-- The forward pass, when it completes, re-establishes the weak length
invariant: every joint it moves lands exactly its segment length from its
parent's new position or snaps onto it, and every branch it aligns is moved
rigidly from a configuration satisfying the invariant. -/
theorem ik_reach_forward_weak_invariant :
    ∀ (j : ik_joint) (d : ℝ) (t : ik_vec2) (pp : Option ik_vec2) (s : List ℕ)
      (j' : ik_joint) (s' : List ℕ),
      ForwardReady j s → ik_reach_forward j d t pp s = some (j', s') →
      WeakLengthInvariant j' ∧ j'.pos = ik_move_within_dist j.pos d t ∧
        j'.len = j.len := by
  intro j
  induction j using ik_joint.strongInduction with
  | h p l cs ih =>
    intro d t pp s j' s' hready heq
    match cs, hready, ih with
    | [], _, _ =>
      rw [ik_reach_forward] at heq
      simp only [Option.some.injEq, Prod.mk.injEq] at heq
      obtain ⟨rfl, rfl⟩ := heq
      refine ⟨WeakLengthInvariant.mk _ _ _ ?_ ?_, by simp, by simp⟩
      · intro c hc
        exact absurd hc (List.not_mem_nil _)
      · intro c hc
        exact absurd hc (List.not_mem_nil _)
    | [c], hready, ih =>
      have hclen : 0 ≤ c.len := by
        cases hready with
        | single _ _ _ _ h0 _ => exact h0
        | multiEmpty _ _ _ h2 => simp at h2
        | multi _ _ _ _ _ h2 _ _ _ => simp at h2
      have hcready : ForwardReady c s := by
        cases hready with
        | single _ _ _ _ _ hr => exact hr
        | multiEmpty _ _ _ h2 => simp at h2
        | multi _ _ _ _ _ h2 _ _ _ => simp at h2
      rw [ik_reach_forward] at heq
      cases hrec : ik_reach_forward c c.len (ik_move_within_dist p d t)
          (some (ik_move_within_dist p d t)) s with
      | none => rw [hrec] at heq; exact absurd heq (by simp)
      | some r =>
        obtain ⟨c', s₂⟩ := r
        rw [hrec] at heq
        simp only [Option.some.injEq, Prod.mk.injEq] at heq
        obtain ⟨rfl, rfl⟩ := heq
        obtain ⟨hwinv, hpos, hlen⟩ :=
          ih c (List.mem_cons_self c []) c.len (ik_move_within_dist p d t)
            (some (ik_move_within_dist p d t)) s c' s₂ hcready hrec
        refine ⟨WeakLengthInvariant.mk _ _ _ ?_ ?_, by simp, by simp⟩
        · intro c'' hc''
          rw [List.mem_singleton] at hc''
          subst hc''
          rw [hpos, hlen]
          exact ik_move_within_dist_dist_or_snap c.pos (ik_move_within_dist p d t)
            c.len hclen
        · intro c'' hc''
          rw [List.mem_singleton] at hc''
          subst hc''
          exact hwinv
    | c₁ :: c₂ :: cs₀, hready, ih =>
      match s, hready with
      | [], _ =>
        rw [ik_reach_forward] at heq
        exact absurd heq (by simp)
      | i :: s₁, hready =>
        have hsib : ∀ k, k ≠ i → ∀ c, (c₁ :: c₂ :: cs₀).get? k = some c →
            vdist c.pos p = c.len ∧ LengthInvariant c := by
          cases hready with
          | multi _ _ _ _ _ _ hs _ _ => exact hs
        have hplen : ∀ c, (c₁ :: c₂ :: cs₀).get? i = some c → 0 ≤ c.len := by
          cases hready with
          | multi _ _ _ _ _ _ _ h0 _ => exact h0
        have hpready : ∀ c, (c₁ :: c₂ :: cs₀).get? i = some c → ForwardReady c s₁ := by
          cases hready with
          | multi _ _ _ _ _ _ _ _ hr => exact hr
        rw [ik_reach_forward] at heq
        simp only at heq
        by_cases hi : i < (c₁ :: c₂ :: cs₀).length
        · rw [dif_pos hi] at heq
          set c := (c₁ :: c₂ :: cs₀).get ⟨i, hi⟩ with hc
          have hcget : (c₁ :: c₂ :: cs₀).get? i = some c := by
            rw [hc, List.get?_eq_get hi]
          cases hrec : ik_reach_forward c c.len (ik_move_within_dist p d t)
              (some (ik_move_within_dist p d t)) s₁ with
          | none => rw [hrec] at heq; exact absurd heq (by simp)
          | some r =>
            obtain ⟨c', s₂⟩ := r
            rw [hrec] at heq
            simp only [Option.some.injEq, Prod.mk.injEq] at heq
            obtain ⟨rfl, rfl⟩ := heq
            obtain ⟨hwinv, hpos, hlen⟩ :=
              ih c (List.get_mem _ i hi) c.len (ik_move_within_dist p d t)
                (some (ik_move_within_dist p d t)) s₁ c' s₂ (hpready c hcget) hrec
            refine ⟨WeakLengthInvariant.mk _ _ _ ?_ ?_, by simp, by simp⟩
            · intro c'' hc''
              obtain ⟨k, hk⟩ := List.mem_iff_get?.mp hc''
              by_cases hki : k = i
              · subst hki
                have hilt : k < (alignExcept (alignChildFun pp p
                    (ik_move_within_dist p d t)) k (c₁ :: c₂ :: cs₀)).length := by
                  rw [alignExcept_length]
                  exact hi
                rw [List.get?_set_eq_of_lt _ hilt] at hk
                cases hk
                rw [hpos, hlen]
                exact ik_move_within_dist_dist_or_snap c.pos
                  (ik_move_within_dist p d t) c.len (hplen c hcget)
              · rw [List.get?_set_ne _ _ (fun h => hki h.symm),
                  alignExcept_get?_ne _ _ _ hki] at hk
                cases h0 : (c₁ :: c₂ :: cs₀).get? k with
                | none => rw [h0] at hk; exact absurd hk (by simp)
                | some c₀ =>
                  rw [h0, Option.map_some'] at hk
                  cases hk
                  obtain ⟨hd0, hinv0⟩ := hsib k hki c₀ h0
                  left
                  rw [alignChildFun_len, alignChildFun_vdist_parent, hd0]
            · intro c'' hc''
              obtain ⟨k, hk⟩ := List.mem_iff_get?.mp hc''
              by_cases hki : k = i
              · subst hki
                have hilt : k < (alignExcept (alignChildFun pp p
                    (ik_move_within_dist p d t)) k (c₁ :: c₂ :: cs₀)).length := by
                  rw [alignExcept_length]
                  exact hi
                rw [List.get?_set_eq_of_lt _ hilt] at hk
                cases hk
                exact hwinv
              · rw [List.get?_set_ne _ _ (fun h => hki h.symm),
                  alignExcept_get?_ne _ _ _ hki] at hk
                cases h0 : (c₁ :: c₂ :: cs₀).get? k with
                | none => rw [h0] at hk; exact absurd hk (by simp)
                | some c₀ =>
                  rw [h0, Option.map_some'] at hk
                  cases hk
                  obtain ⟨hd0, hinv0⟩ := hsib k hki c₀ h0
                  exact LengthInvariant.toWeak _ (alignChildFun_LengthInvariant _ _ _ _ hinv0)
        · rw [dif_neg hi] at heq
          exact absurd heq (by simp)

theorem ik_reach_forward_leaf (p : ik_vec2) (l : ℝ) (d : ℝ) (t : ik_vec2)
    (pp : Option ik_vec2) (s : List ℕ) :
    ik_reach_forward (.mk p l []) d t pp s =
      some (.mk (ik_move_within_dist p d t) l [], s) := by
  rw [ik_reach_forward]

theorem ik_reach_forward_one (p : ik_vec2) (l : ℝ) (c : ik_joint) (d : ℝ)
    (t : ik_vec2) (pp : Option ik_vec2) (s : List ℕ) :
    ik_reach_forward (.mk p l [c]) d t pp s =
      match ik_reach_forward c c.len (ik_move_within_dist p d t)
          (some (ik_move_within_dist p d t)) s with
      | none => none
      | some (c', s') => some (.mk (ik_move_within_dist p d t) l [c'], s') := by
  rw [ik_reach_forward]

theorem ik_reach_forward_two (p : ik_vec2) (l : ℝ) (cs : List ik_joint)
    (h2 : 2 ≤ cs.length) (d : ℝ) (t : ik_vec2) (pp : Option ik_vec2) (i : ℕ)
    (s : List ℕ) :
    ik_reach_forward (.mk p l cs) d t pp (i :: s) =
      if h : i < cs.length then
        match ik_reach_forward (cs.get ⟨i, h⟩) (cs.get ⟨i, h⟩).len
            (ik_move_within_dist p d t) (some (ik_move_within_dist p d t)) s with
        | none => none
        | some (c', s') => some (.mk (ik_move_within_dist p d t) l
            ((alignExcept (alignChildFun pp p (ik_move_within_dist p d t)) i cs).set
              i c'), s')
      else none := by
  match cs, h2 with
  | c₁ :: c₂ :: cs₀, _ => rw [ik_reach_forward]

theorem ik_reach_forward_two_nil (p : ik_vec2) (l : ℝ) (cs : List ik_joint)
    (h2 : 2 ≤ cs.length) (d : ℝ) (t : ik_vec2) (pp : Option ik_vec2) :
    ik_reach_forward (.mk p l cs) d t pp [] = none := by
  match cs, h2 with
  | c₁ :: c₂ :: cs₀, _ => rw [ik_reach_forward]

theorem ik_reach_back_nil (j : ik_joint) (s : List ℕ) :
    ik_reach_back j [] s = (j, j.pos, s) := by
  rw [ik_reach_back]

theorem ik_reach_back_one (j : ik_joint) (f : Frame) (s : List ℕ) :
    ik_reach_back j [f] s =
      (.mk (ik_move_within_dist f.pos j.len j.pos) f.len
        ((if f.nChildren > 1 then
            f.pre.map (alignChildFun none f.pos (ik_move_within_dist f.pos j.len j.pos))
          else f.pre) ++ j ::
          (if f.nChildren > 1 then
            f.post.map (alignChildFun none f.pos (ik_move_within_dist f.pos j.len j.pos))
          else f.post)),
       f.pos, s) := by
  rw [ik_reach_back]

theorem ik_reach_back_two (j : ik_joint) (f f' : Frame) (rest : List Frame)
    (s : List ℕ) :
    ik_reach_back j (f :: f' :: rest) s =
      ik_reach_back
        (.mk (ik_move_within_dist f.pos j.len j.pos) f.len
          ((if f.nChildren > 1 then
              f.pre.map
                (alignChildFun (some f'.pos) f.pos (ik_move_within_dist f.pos j.len j.pos))
            else f.pre) ++ j ::
            (if f.nChildren > 1 then
              f.post.map
                (alignChildFun (some f'.pos) f.pos (ik_move_within_dist f.pos j.len j.pos))
            else f.post)))
        (f' :: rest)
        (if f'.pre.length + f'.post.length > 0 then f'.pre.length :: s else s) := by
  rw [ik_reach_back]

/-- The joint a reach-back step rebuilds is `ForwardReady` for the stack that
step leaves: its aligned siblings keep their distances and invariants, and
its path child is the previously processed subtree. -/
theorem ik_reach_back_node_ForwardReady (f : Frame) (j : ik_joint)
    (pp : Option ik_vec2) (s0 : List ℕ)
    (hsib : ∀ c ∈ f.pre ++ f.post, vdist c.pos f.pos = c.len ∧ LengthInvariant c)
    (hjlen : 0 ≤ j.len) (hready : ForwardReady j s0) :
    ForwardReady
      (.mk (ik_move_within_dist f.pos j.len j.pos) f.len
        ((if f.nChildren > 1 then
            f.pre.map (alignChildFun pp f.pos (ik_move_within_dist f.pos j.len j.pos))
          else f.pre) ++ j ::
          (if f.nChildren > 1 then
            f.post.map (alignChildFun pp f.pos (ik_move_within_dist f.pos j.len j.pos))
          else f.post)))
      (if f.pre.length + f.post.length > 0 then f.pre.length :: s0 else s0) := by
  by_cases hm : f.pre.length + f.post.length > 0
  · have hn : f.nChildren > 1 := by
      rw [Frame.nChildren]
      omega
    rw [if_pos hm, if_pos hn, if_pos hn]
    set nv := ik_move_within_dist f.pos j.len j.pos with hnv
    set g := alignChildFun pp f.pos nv with hg
    have hlenmap : (f.pre.map g).length = f.pre.length := List.length_map _ _
    have hpath : (f.pre.map g ++ j :: f.post.map g).get? f.pre.length = some j := by
      rw [List.get?_append_right (by rw [hlenmap]), hlenmap, Nat.sub_self,
        List.get?_cons_zero]
    refine ForwardReady.multi _ _ _ _ _ ?_ ?_ ?_ ?_
    · simp only [List.length_append, List.length_cons, List.length_map]
      omega
    · intro k hk c hc
      by_cases hklt : k < f.pre.length
      · rw [List.get?_append (by rw [hlenmap]; exact hklt), List.get?_map] at hc
        cases h0 : f.pre.get? k with
        | none => rw [h0] at hc; exact absurd hc (by simp)
        | some c₀ =>
          rw [h0, Option.map_some'] at hc
          cases hc
          obtain ⟨hd0, hi0⟩ := hsib c₀ (List.mem_append_left _ (List.get?_mem h0))
          refine ⟨?_, alignChildFun_LengthInvariant _ _ _ _ hi0⟩
          rw [alignChildFun_len, alignChildFun_vdist_parent, hd0]
      · have hge : f.pre.length < k := by
          rcases Nat.lt_or_ge k f.pre.length with h | h
          · exact absurd h hklt
          · rcases Nat.eq_or_lt_of_le h with h | h
            · exact absurd h.symm hk
            · exact h
        rw [List.get?_append_right (by rw [hlenmap]; omega), hlenmap] at hc
        obtain ⟨m, hmap⟩ : ∃ m, k - f.pre.length = m + 1 :=
          ⟨k - f.pre.length - 1, by omega⟩
        rw [hmap, List.get?_cons_succ, List.get?_map] at hc
        cases h0 : f.post.get? m with
        | none => rw [h0] at hc; exact absurd hc (by simp)
        | some c₀ =>
          rw [h0, Option.map_some'] at hc
          cases hc
          obtain ⟨hd0, hi0⟩ := hsib c₀ (List.mem_append_right _ (List.get?_mem h0))
          refine ⟨?_, alignChildFun_LengthInvariant _ _ _ _ hi0⟩
          rw [alignChildFun_len, alignChildFun_vdist_parent, hd0]
    · intro c hc
      rw [hpath] at hc
      cases hc
      exact hjlen
    · intro c hc
      rw [hpath] at hc
      cases hc
      exact hready
  · have hpre : f.pre = [] := List.length_eq_zero.mp (by omega)
    have hpost : f.post = [] := List.length_eq_zero.mp (by omega)
    have hn : ¬ f.nChildren > 1 := by
      rw [Frame.nChildren]
      omega
    rw [if_neg hm, if_neg hn, if_neg hn, hpre, hpost, List.nil_append]
    exact ForwardReady.single _ _ _ _ hjlen hready

/-- Walking reach-back up the ancestor frames preserves `ForwardReady`, with
the stack the walk itself accumulates. -/
theorem ik_reach_back_ForwardReady :
    ∀ (rest : List Frame) (f : Frame) (j : ik_joint) (s0 : List ℕ),
      ForwardReady j s0 → 0 ≤ j.len → FramesInvariant (f :: rest) →
      ForwardReady
        (ik_reach_back j (f :: rest)
          (if f.pre.length + f.post.length > 0 then f.pre.length :: s0 else s0)).1
        (ik_reach_back j (f :: rest)
          (if f.pre.length + f.post.length > 0 then f.pre.length :: s0 else s0)).2.2 := by
  intro rest
  induction rest with
  | nil =>
    intro f j s0 hready hjlen hfr
    rw [ik_reach_back_one]
    obtain ⟨hsib, -, -⟩ := hfr
    by_cases hm : f.pre.length + f.post.length > 0
    · rw [if_pos hm]
      have h := ik_reach_back_node_ForwardReady f j none s0 hsib hjlen hready
      rw [if_pos hm] at h
      exact h
    · rw [if_neg hm]
      have h := ik_reach_back_node_ForwardReady f j none s0 hsib hjlen hready
      rw [if_neg hm] at h
      exact h
  | cons f' rest' ih =>
    intro f j s0 hready hjlen hfr
    rw [ik_reach_back_two]
    obtain ⟨hsib, hflen, hfr'⟩ := hfr
    have hnode := ik_reach_back_node_ForwardReady f j (some f'.pos)
      s0 hsib hjlen hready
    have hlen0 : 0 ≤ f.len := by
      rcases hflen with h | h
      · exact absurd h (List.cons_ne_nil _ _)
      · exact h
    by_cases hm : f.pre.length + f.post.length > 0
    · rw [if_pos hm]
      rw [if_pos hm] at hnode
      exact ih f' _ _ hnode (by rw [ik_joint.len_mk]; exact hlen0) hfr'
    · rw [if_neg hm]
      rw [if_neg hm] at hnode
      exact ih f' _ _ hnode (by rw [ik_joint.len_mk]; exact hlen0) hfr'

theorem ik_reach_back_first_ForwardReady (e : ik_joint) (pp : Option ik_vec2)
    (t : ik_vec2) (h : LengthInvariant e) :
    ForwardReady (ik_reach_back_first e pp t) [] := by
  cases e with
  | mk p l cs =>
    cases h with
    | mk _ _ _ hdist hrec =>
      rw [ik_reach_back_first]
      simp only [ik_joint.children_mk, ik_joint.pos_mk, ik_joint.len_mk]
      match cs, hdist, hrec with
      | [], _, _ =>
        rw [if_neg (by simp)]
        exact ForwardReady.leaf _ _ _
      | [c], hdist, hrec =>
        rw [if_neg (by simp)]
        refine ForwardReady.single _ _ _ _ ?_
          (ForwardReady_of_LengthInvariant c (hrec c (List.mem_cons_self c [])))
        rw [← hdist c (List.mem_cons_self c [])]
        exact vdist_nonneg _ _
      | c₁ :: c₂ :: cs₀, _, _ =>
        rw [if_pos (by simp only [List.length_cons]; omega)]
        exact ForwardReady.multiEmpty _ _ _
          (by simp only [List.length_map, List.length_cons]; omega)

theorem ik_reach_back_first_children_length (e : ik_joint) (pp : Option ik_vec2)
    (t : ik_vec2) :
    (ik_reach_back_first e pp t).children.length = e.children.length := by
  rw [ik_reach_back_first, ik_joint.children_mk]
  by_cases h : e.children.length > 1
  · rw [if_pos h, List.length_map]
  · rw [if_neg h]

theorem ik_reach_back_first_len (e : ik_joint) (pp : Option ik_vec2) (t : ik_vec2) :
    (ik_reach_back_first e pp t).len = e.len := by
  rw [ik_reach_back_first, ik_joint.len_mk]

theorem ik_solve_back_nil (e : ik_joint) (t : ik_vec2) :
    ik_solve_back e [] t = (ik_reach_back_first e none t, e.pos, []) := by
  rw [ik_solve_back]

theorem ik_solve_back_cons (e : ik_joint) (f : Frame) (rest : List Frame)
    (t : ik_vec2) :
    ik_solve_back e (f :: rest) t =
      ik_reach_back (ik_reach_back_first e (some f.pos) t) (f :: rest)
        (if f.pre.length + f.post.length > 0 then [f.pre.length] else []) := by
  rw [ik_solve_back]

theorem ik_solve_eq (e : ik_joint) (frames : List Frame) (tx ty : ℝ) :
    ik_solve e frames tx ty =
      ik_reach_forward (ik_solve_back e frames ⟨tx, ty⟩).1 0
        (ik_solve_back e frames ⟨tx, ty⟩).2.1 none
        (ik_solve_back e frames ⟨tx, ty⟩).2.2 := by
  rw [ik_solve]

/-- A forward pass started with an empty stack never pops, so a completed run
ends with an empty stack. -/
theorem ik_reach_forward_stack_nil :
    ∀ (j : ik_joint) (d : ℝ) (t : ik_vec2) (pp : Option ik_vec2) (j' : ik_joint)
      (s' : List ℕ),
      ik_reach_forward j d t pp [] = some (j', s') → s' = [] := by
  intro j
  induction j using ik_joint.strongInduction with
  | h p l cs ih =>
    intro d t pp j' s' heq
    match cs, ih with
    | [], _ =>
      rw [ik_reach_forward_leaf] at heq
      simp only [Option.some.injEq, Prod.mk.injEq] at heq
      exact heq.2.symm
    | [c], ih =>
      rw [ik_reach_forward_one] at heq
      cases hrec : ik_reach_forward c c.len (ik_move_within_dist p d t)
          (some (ik_move_within_dist p d t)) [] with
      | none => rw [hrec] at heq; exact absurd heq (by simp)
      | some r =>
        obtain ⟨c', s₂⟩ := r
        rw [hrec] at heq
        simp only [Option.some.injEq, Prod.mk.injEq] at heq
        obtain ⟨-, rfl⟩ := heq
        exact ih c (List.mem_cons_self c []) _ _ _ _ _ hrec
    | c₁ :: c₂ :: cs₀, _ =>
      rw [ik_reach_forward_two_nil _ _ _
        (by simp only [List.length_cons]; omega)] at heq
      exact absurd heq (by simp)

/-- One forward step through a rebuilt reach-back node: the pass recurses into
the path child `j` (found via the stack entry at a branching joint, or as
the only child), carrying the remaining stack, and some wrapper `G` rebuilds
the surrounding node. -/
theorem ik_reach_forward_into_node (p : ik_vec2) (l : ℝ)
    (pre' post' : List ik_joint) (j : ik_joint) (d : ℝ) (t : ik_vec2)
    (pp : Option ik_vec2) (s0 : List ℕ) :
    ∃ (t₁ : ik_vec2) (G : ik_joint → ik_joint),
      ik_reach_forward (.mk p l (pre' ++ j :: post')) d t pp
          (if pre'.length + post'.length > 0 then pre'.length :: s0 else s0) =
        (ik_reach_forward j j.len t₁ (some t₁) s0).map (fun r => (G r.1, r.2)) := by
  by_cases hm : pre'.length + post'.length > 0
  · rw [if_pos hm]
    refine ⟨ik_move_within_dist p d t, fun c' => .mk (ik_move_within_dist p d t) l
      ((alignExcept (alignChildFun pp p (ik_move_within_dist p d t)) pre'.length
        (pre' ++ j :: post')).set pre'.length c'), ?_⟩
    have h2 : 2 ≤ (pre' ++ j :: post').length := by
      simp only [List.length_append, List.length_cons]
      omega
    have hilt : pre'.length < (pre' ++ j :: post').length := by
      simp only [List.length_append, List.length_cons]
      omega
    rw [ik_reach_forward_two _ _ _ h2, dif_pos hilt]
    have hget : (pre' ++ j :: post').get ⟨pre'.length, hilt⟩ = j := by
      have h1 : (pre' ++ j :: post').get? pre'.length = some j := by
        rw [List.get?_append_right (le_refl _), Nat.sub_self, List.get?_cons_zero]
      rw [List.get?_eq_get hilt] at h1
      exact Option.some.inj h1
    rw [hget]
    cases ik_reach_forward j j.len (ik_move_within_dist p d t)
      (some (ik_move_within_dist p d t)) s0 <;> rfl
  · rw [if_neg hm]
    have hpre : pre' = [] := List.length_eq_zero.mp (by omega)
    have hpost : post' = [] := List.length_eq_zero.mp (by omega)
    subst hpre hpost
    rw [List.nil_append, ik_reach_forward_one]
    refine ⟨ik_move_within_dist p d t,
      fun c' => .mk (ik_move_within_dist p d t) l [c'], ?_⟩
    cases ik_reach_forward j j.len (ik_move_within_dist p d t)
      (some (ik_move_within_dist p d t)) s0 <;> rfl

/-- The forward pass on a reach-back result decomposes: it walks the rebuilt
ancestor spine (consuming exactly the stack entries reach-back pushed) and
then runs on the processed effected subtree with the stack reach-back
started from. -/
theorem ik_reach_back_spine :
    ∀ (rest : List Frame) (f : Frame) (j : ik_joint) (s0 : List ℕ) (d : ℝ)
      (t : ik_vec2) (pp : Option ik_vec2),
      ∃ (t₁ : ik_vec2) (G : ik_joint → ik_joint),
        ik_reach_forward
            (ik_reach_back j (f :: rest)
              (if f.pre.length + f.post.length > 0 then f.pre.length :: s0 else s0)).1
            d t pp
            (ik_reach_back j (f :: rest)
              (if f.pre.length + f.post.length > 0 then f.pre.length :: s0 else s0)).2.2 =
          (ik_reach_forward j j.len t₁ (some t₁) s0).map (fun r => (G r.1, r.2)) := by
  intro rest
  induction rest with
  | nil =>
    intro f j s0 d t pp
    rw [ik_reach_back_one]
    have hprelen : (if f.nChildren > 1 then
        f.pre.map (alignChildFun none f.pos (ik_move_within_dist f.pos j.len j.pos))
      else f.pre).length = f.pre.length := by
      by_cases h : f.nChildren > 1
      · rw [if_pos h, List.length_map]
      · rw [if_neg h]
    have hpostlen : (if f.nChildren > 1 then
        f.post.map (alignChildFun none f.pos (ik_move_within_dist f.pos j.len j.pos))
      else f.post).length = f.post.length := by
      by_cases h : f.nChildren > 1
      · rw [if_pos h, List.length_map]
      · rw [if_neg h]
    obtain ⟨t₁, G, hG⟩ := ik_reach_forward_into_node
      (ik_move_within_dist f.pos j.len j.pos) f.len
      (if f.nChildren > 1 then
        f.pre.map (alignChildFun none f.pos (ik_move_within_dist f.pos j.len j.pos))
      else f.pre)
      (if f.nChildren > 1 then
        f.post.map (alignChildFun none f.pos (ik_move_within_dist f.pos j.len j.pos))
      else f.post) j d t pp s0
    rw [hprelen, hpostlen] at hG
    exact ⟨t₁, G, hG⟩
  | cons f' rest' ih =>
    intro f j s0 d t pp
    rw [ik_reach_back_two]
    obtain ⟨t₁, G₁, hG₁⟩ := ih f'
      (.mk (ik_move_within_dist f.pos j.len j.pos) f.len
        ((if f.nChildren > 1 then
            f.pre.map
              (alignChildFun (some f'.pos) f.pos (ik_move_within_dist f.pos j.len j.pos))
          else f.pre) ++ j ::
          (if f.nChildren > 1 then
            f.post.map
              (alignChildFun (some f'.pos) f.pos (ik_move_within_dist f.pos j.len j.pos))
          else f.post)))
      (if f.pre.length + f.post.length > 0 then f.pre.length :: s0 else s0) d t pp
    have hprelen : (if f.nChildren > 1 then
        f.pre.map
          (alignChildFun (some f'.pos) f.pos (ik_move_within_dist f.pos j.len j.pos))
      else f.pre).length = f.pre.length := by
      by_cases h : f.nChildren > 1
      · rw [if_pos h, List.length_map]
      · rw [if_neg h]
    have hpostlen : (if f.nChildren > 1 then
        f.post.map
          (alignChildFun (some f'.pos) f.pos (ik_move_within_dist f.pos j.len j.pos))
      else f.post).length = f.post.length := by
      by_cases h : f.nChildren > 1
      · rw [if_pos h, List.length_map]
      · rw [if_neg h]
    obtain ⟨t₂, G₂, hG₂⟩ := ik_reach_forward_into_node
      (ik_move_within_dist f.pos j.len j.pos) f.len
      (if f.nChildren > 1 then
        f.pre.map
          (alignChildFun (some f'.pos) f.pos (ik_move_within_dist f.pos j.len j.pos))
      else f.pre)
      (if f.nChildren > 1 then
        f.post.map
          (alignChildFun (some f'.pos) f.pos (ik_move_within_dist f.pos j.len j.pos))
      else f.post) j
      (ik_joint.mk (ik_move_within_dist f.pos j.len j.pos) f.len
        ((if f.nChildren > 1 then
            f.pre.map
              (alignChildFun (some f'.pos) f.pos (ik_move_within_dist f.pos j.len j.pos))
          else f.pre) ++ j ::
          (if f.nChildren > 1 then
            f.post.map
              (alignChildFun (some f'.pos) f.pos (ik_move_within_dist f.pos j.len j.pos))
          else f.post))).len
      t₁ (some t₁) s0
    rw [hprelen, hpostlen] at hG₂
    refine ⟨t₂, fun c' => G₁ (G₂ c'), ?_⟩
    rw [hG₁, hG₂]
    cases ik_reach_forward j j.len t₂ (some t₂) s0 <;> rfl

/-- Claim C7: for a solve call entered with the empty stack, the reach-forward
pass pops exactly the entries reach-back pushed: when `ik_solve` completes,
the returned stack is empty, so the number of pops (pushed entries minus
entries left over) equals the number of pushes. -/
theorem ik_solve_stack_balance (e : ik_joint) (frames : List Frame) (tx ty : ℝ)
    (T' : ik_joint) (S' : List ℕ)
    (h : ik_solve e frames tx ty = some (T', S')) :
    S' = [] ∧
      (ik_solve_back e frames ⟨tx, ty⟩).2.2.length - S'.length =
        (ik_solve_back e frames ⟨tx, ty⟩).2.2.length := by
  have hS : S' = [] := by
    match frames with
    | [] =>
      rw [ik_solve_eq, ik_solve_back_nil] at h
      exact ik_reach_forward_stack_nil _ _ _ _ _ _ h
    | f :: rest =>
      rw [ik_solve_eq, ik_solve_back_cons] at h
      obtain ⟨t₁, G, hG⟩ := ik_reach_back_spine rest f
        (ik_reach_back_first e (some f.pos) ⟨tx, ty⟩) [] 0
        (ik_reach_back (ik_reach_back_first e (some f.pos) ⟨tx, ty⟩) (f :: rest)
          (if f.pre.length + f.post.length > 0 then [f.pre.length] else [])).2.1 none
      rw [hG] at h
      cases hrec : ik_reach_forward (ik_reach_back_first e (some f.pos) ⟨tx, ty⟩)
          (ik_reach_back_first e (some f.pos) ⟨tx, ty⟩).len t₁ (some t₁) [] with
      | none => rw [hrec] at h; exact absurd h (by simp)
      | some r =>
        obtain ⟨j₁, s₁⟩ := r
        rw [hrec] at h
        simp only [Option.map_some', Option.some.injEq, Prod.mk.injEq] at h
        obtain ⟨-, rfl⟩ := h
        exact ik_reach_forward_stack_nil _ _ _ _ _ _ hrec
  refine ⟨hS, ?_⟩
  rw [hS]
  simp

/-- Claim C9: if the effected joint itself has more than one child, the forward
pass pops the already-empty path stack upon reaching it, obtains a NULL path
child and dereferences it: the embedding returns `none`, so totality of
`ik_solve` requires the effected joint to have at most one child. -/
theorem ik_solve_multi_child_crash (e : ik_joint) (frames : List Frame)
    (tx ty : ℝ) (h : e.children.length > 1) :
    ik_solve e frames tx ty = none := by
  match frames with
  | [] =>
    rw [ik_solve_eq, ik_solve_back_nil]
    cases hBF : ik_reach_back_first e none ⟨tx, ty⟩ with
    | mk p l cs =>
      have h2 : 2 ≤ cs.length := by
        have := ik_reach_back_first_children_length e none ⟨tx, ty⟩
        rw [hBF, ik_joint.children_mk] at this
        omega
      exact ik_reach_forward_two_nil _ _ _ h2 _ _ _
  | f :: rest =>
    rw [ik_solve_eq, ik_solve_back_cons]
    obtain ⟨t₁, G, hG⟩ := ik_reach_back_spine rest f
      (ik_reach_back_first e (some f.pos) ⟨tx, ty⟩) [] 0
      (ik_reach_back (ik_reach_back_first e (some f.pos) ⟨tx, ty⟩) (f :: rest)
        (if f.pre.length + f.post.length > 0 then [f.pre.length] else [])).2.1 none
    rw [hG]
    cases hBF : ik_reach_back_first e (some f.pos) ⟨tx, ty⟩ with
    | mk p l cs =>
      have h2 : 2 ≤ cs.length := by
        have := ik_reach_back_first_children_length e (some f.pos) ⟨tx, ty⟩
        rw [hBF, ik_joint.children_mk] at this
        omega
      rw [ik_reach_forward_two_nil _ _ _ h2 _ _ _, Option.map_none']

theorem plugFrames_extract :
    ∀ (frames : List Frame) (N : ik_joint), LengthInvariant (plugFrames N frames) →
      LengthInvariant N ∧ (frames ≠ [] → 0 ≤ N.len) := by
  intro frames
  induction frames with
  | nil =>
    intro N h
    exact ⟨h, fun hne => absurd rfl hne⟩
  | cons f rest ih =>
    intro N h
    rw [plugFrames] at h
    obtain ⟨hinv, -⟩ := ih (f.plug N) h
    rw [Frame.plug] at hinv
    cases hinv with
    | mk _ _ _ hdist hrec =>
      have hmem : N ∈ f.pre ++ N :: f.post :=
        List.mem_append_right _ (List.mem_cons_self _ _)
      refine ⟨hrec N hmem, fun _ => ?_⟩
      rw [← hdist N hmem]
      exact vdist_nonneg _ _

theorem plugFrames_FramesInvariant :
    ∀ (frames : List Frame) (N : ik_joint), LengthInvariant (plugFrames N frames) →
      FramesInvariant frames := by
  intro frames
  induction frames with
  | nil =>
    intro N _
    exact trivial
  | cons f rest ih =>
    intro N h
    rw [plugFrames] at h
    have hfr := ih (f.plug N) h
    obtain ⟨hplug, hlen⟩ := plugFrames_extract rest (f.plug N) h
    rw [Frame.plug] at hplug
    cases hplug with
    | mk _ _ _ hdist hrec =>
      refine ⟨?_, ?_, hfr⟩
      · intro c hc
        have hmem : c ∈ f.pre ++ N :: f.post := by
          rcases List.mem_append.mp hc with h0 | h0
          · exact List.mem_append_left _ h0
          · exact List.mem_append_right _ (List.mem_cons_of_mem _ h0)
        exact ⟨hdist c hmem, hrec c hmem⟩
      · cases rest with
        | nil => exact Or.inl rfl
        | cons f' rest' =>
          right
          have h0 := hlen (List.cons_ne_nil _ _)
          have h1 : (Frame.plug f N).len = f.len := by
            rw [Frame.plug, ik_joint.len_mk]
          rw [← h1]
          exact h0

/-- Claim C2 (amended): `ik_translate` preserves the exact length invariant;
a completed `ik_solve` call preserves it in the weakened form that a joint
may instead coincide exactly with its parent when the degenerate snap branch
of `ik_move_within_dist` fires. -/
theorem ik_solve_length_preservation :
    (∀ (j : ik_joint) (x y : ℝ), LengthInvariant j →
      LengthInvariant (ik_translate j x y)) ∧
    (∀ (e : ik_joint) (frames : List Frame) (tx ty : ℝ) (T' : ik_joint)
      (S' : List ℕ),
      LengthInvariant (plugFrames e frames) →
      ik_solve e frames tx ty = some (T', S') →
      WeakLengthInvariant T') := by
  constructor
  · intro j x y h
    exact ik_translate_LengthInvariant x y j h
  · intro e frames tx ty T' S' hinv h
    match frames with
    | [] =>
      rw [ik_solve_eq, ik_solve_back_nil] at h
      have hinvE : LengthInvariant e := hinv
      have hready := ik_reach_back_first_ForwardReady e none ⟨tx, ty⟩ hinvE
      exact (ik_reach_forward_weak_invariant _ _ _ _ _ _ _ hready h).1
    | f :: rest =>
      rw [ik_solve_eq, ik_solve_back_cons] at h
      obtain ⟨hinvE, hlenE⟩ := plugFrames_extract (f :: rest) e hinv
      have hfr := plugFrames_FramesInvariant (f :: rest) e hinv
      have hready0 := ik_reach_back_first_ForwardReady e (some f.pos) ⟨tx, ty⟩ hinvE
      have hlen0 : 0 ≤ (ik_reach_back_first e (some f.pos) ⟨tx, ty⟩).len := by
        rw [ik_reach_back_first_len]
        exact hlenE (List.cons_ne_nil _ _)
      have hready := ik_reach_back_ForwardReady rest f _ [] hready0 hlen0 hfr
      exact (ik_reach_forward_weak_invariant _ _ _ _ _ _ _ hready h).1

/-- Closed form of one `ik_solve` call on a two-joint chain (root plus one
leaf, the effected joint): the backward pass drags the leaf onto the target
and the root within the leaf's segment length of it; the forward pass pins
the root back at its original position and re-extends the leaf toward the
target. -/
theorem ik_solve_two_joint (lp rp : ik_vec2) (L rl tx ty : ℝ) :
    ik_solve (.mk lp L []) [{ pos := rp, len := rl, pre := [], post := [] }] tx ty =
      some (.mk rp rl [.mk (ik_move_within_dist ⟨tx, ty⟩ L rp) L []], []) := by
  have hBF : ik_reach_back_first (.mk lp L []) (some rp) ⟨tx, ty⟩ =
      .mk ⟨tx, ty⟩ L [] := by
    rw [ik_reach_back_first]
    simp only [ik_joint.children_mk, ik_joint.pos_mk, ik_joint.len_mk]
    rw [if_neg (by simp), ik_move_within_dist_zero]
  have hwalk : ik_reach_back (.mk ⟨tx, ty⟩ L [])
      [{ pos := rp, len := rl, pre := [], post := [] }] [] =
      (.mk (ik_move_within_dist rp L ⟨tx, ty⟩) rl [.mk ⟨tx, ty⟩ L []], rp, []) := by
    rw [ik_reach_back_one]
    simp [Frame.nChildren, ik_joint.len_mk, ik_joint.pos_mk]
  have hfwd : ik_reach_forward
      (.mk (ik_move_within_dist rp L ⟨tx, ty⟩) rl [.mk ⟨tx, ty⟩ L []]) 0 rp none [] =
      some (.mk rp rl [.mk (ik_move_within_dist ⟨tx, ty⟩ L rp) L []], []) := by
    rw [ik_reach_forward_one, ik_move_within_dist_zero, ik_reach_forward_leaf]
    simp only [ik_joint.len_mk]
  rw [ik_solve_eq, ik_solve_back_cons]
  dsimp only
  rw [if_neg (by simp), hBF, hwalk]
  dsimp only
  rw [hfwd]

/-- Closed form of one `ik_solve` call on a three-joint chain
root → middle → leaf, with the leaf effected. -/
theorem ik_solve_three_joint (b0 a0 r0 : ik_vec2) (lb la rl tx ty : ℝ) :
    ik_solve (.mk b0 lb [])
      [{ pos := a0, len := la, pre := [], post := [] },
       { pos := r0, len := rl, pre := [], post := [] }] tx ty =
      some (.mk r0 rl
        [.mk (ik_move_within_dist (ik_move_within_dist a0 lb ⟨tx, ty⟩) la r0) la
          [.mk (ik_move_within_dist ⟨tx, ty⟩ lb
              (ik_move_within_dist (ik_move_within_dist a0 lb ⟨tx, ty⟩) la r0)) lb []]],
        []) := by
  have hBF : ik_reach_back_first (.mk b0 lb []) (some a0) ⟨tx, ty⟩ =
      .mk ⟨tx, ty⟩ lb [] := by
    rw [ik_reach_back_first]
    simp only [ik_joint.children_mk, ik_joint.pos_mk, ik_joint.len_mk]
    rw [if_neg (by simp), ik_move_within_dist_zero]
  have hwalk : ik_reach_back (.mk ⟨tx, ty⟩ lb [])
      [{ pos := a0, len := la, pre := [], post := [] },
       { pos := r0, len := rl, pre := [], post := [] }] [] =
      (.mk (ik_move_within_dist r0 la (ik_move_within_dist a0 lb ⟨tx, ty⟩)) rl
        [.mk (ik_move_within_dist a0 lb ⟨tx, ty⟩) la [.mk ⟨tx, ty⟩ lb []]],
       r0, []) := by
    rw [ik_reach_back_two]
    simp only [Frame.nChildren, ik_joint.len_mk, ik_joint.pos_mk]
    rw [if_neg (by simp)]
    simp only [List.length_nil, List.nil_append, Nat.add_zero]
    rw [ik_reach_back_one]
    simp [Frame.nChildren, ik_joint.len_mk, ik_joint.pos_mk]
  have hfwd : ik_reach_forward
      (.mk (ik_move_within_dist r0 la (ik_move_within_dist a0 lb ⟨tx, ty⟩)) rl
        [.mk (ik_move_within_dist a0 lb ⟨tx, ty⟩) la [.mk ⟨tx, ty⟩ lb []]])
      0 r0 none [] =
      some (.mk r0 rl
        [.mk (ik_move_within_dist (ik_move_within_dist a0 lb ⟨tx, ty⟩) la r0) la
          [.mk (ik_move_within_dist ⟨tx, ty⟩ lb
              (ik_move_within_dist (ik_move_within_dist a0 lb ⟨tx, ty⟩) la r0)) lb []]],
        []) := by
    rw [ik_reach_forward_one, ik_move_within_dist_zero]
    rw [ik_reach_forward_one]
    simp only [ik_joint.len_mk, ik_joint.pos_mk]
    rw [ik_reach_forward_leaf]
  rw [ik_solve_eq, ik_solve_back_cons]
  dsimp only
  rw [if_neg (by simp), hBF, hwalk]
  dsimp only
  rw [hfwd]

theorem ik_move_within_dist_eval (p t : ik_vec2) (d n : ℝ) (r : ik_vec2)
    (hn : length (p.x - t.x) (p.y - t.y) = n) (hn0 : n ≠ 0)
    (hx : t.x + d * (p.x - t.x) / n = r.x) (hy : t.y + d * (p.y - t.y) / n = r.y) :
    ik_move_within_dist p d t = r := by
  rw [ik_move_within_dist, hn, if_neg hn0]
  ext
  · exact hx
  · exact hy

theorem ik_move_within_dist_snap (p t : ik_vec2)
    (h : length (p.x - t.x) (p.y - t.y) = 0) (d : ℝ) :
    ik_move_within_dist p d t = t := by
  rw [ik_move_within_dist, if_pos h]

/-- Claim C1 (amended): for a two-joint chain whose target lies at distance
exactly the leaf's segment length from the root (the chain's total reachable
length), one `ik_solve` call lands the effected leaf exactly on the target,
with the root restored to its original position. -/
theorem ik_solve_two_joint_exact_reach (lp rp : ik_vec2) (L rl tx ty : ℝ)
    (h : vdist ⟨tx, ty⟩ rp = L) :
    ik_solve (.mk lp L []) [{ pos := rp, len := rl, pre := [], post := [] }] tx ty =
      some (.mk rp rl [.mk ⟨tx, ty⟩ L []], []) := by
  rw [ik_solve_two_joint]
  have hmv : ik_move_within_dist ⟨tx, ty⟩ L rp = ⟨tx, ty⟩ := by
    by_cases h0 : length ((⟨tx, ty⟩ : ik_vec2).x - rp.x) ((⟨tx, ty⟩ : ik_vec2).y - rp.y) = 0
    · have ht : (⟨tx, ty⟩ : ik_vec2) = rp := by
        obtain ⟨h1, h2⟩ := (length_eq_zero_iff _ _).mp h0
        ext
        · simpa using sub_eq_zero.mp h1
        · simpa using sub_eq_zero.mp h2
      rw [ik_move_within_dist_snap _ _ h0, ht]
    · have hL0 : L ≠ 0 := by
        rw [← h]
        exact h0
      refine ik_move_within_dist_eval _ _ _ L _ ?_ hL0 ?_ ?_
      · exact h
      · field_simp
      · field_simp
  rw [hmv]

/-- Claim C3 (amended): for a two-joint chain whose target is strictly farther
from the root than the segment length, one `ik_solve` call fully extends the
chain in a straight line from the (restored) root toward the target: the
leaf lands at the point at distance exactly `L` from the root along the
direction of the target. -/
theorem ik_solve_two_joint_unreachable (lp rp : ik_vec2) (L rl tx ty : ℝ)
    (hL : 0 ≤ L) (hfar : L < vdist ⟨tx, ty⟩ rp) :
    ik_solve (.mk lp L []) [{ pos := rp, len := rl, pre := [], post := [] }] tx ty =
      some (.mk rp rl
        [.mk ⟨rp.x + L * (tx - rp.x) / vdist ⟨tx, ty⟩ rp,
             rp.y + L * (ty - rp.y) / vdist ⟨tx, ty⟩ rp⟩ L []], []) ∧
    vdist ⟨rp.x + L * (tx - rp.x) / vdist ⟨tx, ty⟩ rp,
          rp.y + L * (ty - rp.y) / vdist ⟨tx, ty⟩ rp⟩ rp = L := by
  have hD0 : vdist ⟨tx, ty⟩ rp ≠ 0 := by
    intro h0
    rw [h0] at hfar
    linarith
  have hDpos : 0 < vdist ⟨tx, ty⟩ rp :=
    lt_of_le_of_ne (vdist_nonneg _ _) (Ne.symm hD0)
  have hDD := length_mul_self ((⟨tx, ty⟩ : ik_vec2).x - rp.x)
    ((⟨tx, ty⟩ : ik_vec2).y - rp.y)
  constructor
  · rw [ik_solve_two_joint]
    have hmv : ik_move_within_dist ⟨tx, ty⟩ L rp =
        ⟨rp.x + L * (tx - rp.x) / vdist ⟨tx, ty⟩ rp,
         rp.y + L * (ty - rp.y) / vdist ⟨tx, ty⟩ rp⟩ := by
      refine ik_move_within_dist_eval _ _ _ (vdist ⟨tx, ty⟩ rp) _ rfl hD0 rfl rfl
    rw [hmv]
  · rw [vdist]
    apply length_eval _ _ _ hL
    simp only
    have hexp : rp.x + L * (tx - rp.x) / vdist ⟨tx, ty⟩ rp - rp.x =
        L * (tx - rp.x) / vdist ⟨tx, ty⟩ rp := by ring
    have hexp' : rp.y + L * (ty - rp.y) / vdist ⟨tx, ty⟩ rp - rp.y =
        L * (ty - rp.y) / vdist ⟨tx, ty⟩ rp := by ring
    rw [hexp, hexp']
    have hvd : vdist (⟨tx, ty⟩ : ik_vec2) rp *
        vdist (⟨tx, ty⟩ : ik_vec2) rp = (tx - rp.x) * (tx - rp.x) +
          (ty - rp.y) * (ty - rp.y) := by
      rw [vdist]
      simpa using hDD
    field_simp
    nlinarith [hvd]

theorem vdist_eval (a b : ik_vec2) (r : ℝ) (hr : 0 ≤ r)
    (h : (a.x - b.x) * (a.x - b.x) + (a.y - b.y) * (a.y - b.y) = r * r) :
    vdist a b = r := by
  rw [vdist]
  exact length_eval _ _ _ hr h

theorem LengthInvariant_leaf (p : ik_vec2) (l : ℝ) : LengthInvariant (.mk p l []) :=
  LengthInvariant.mk p l [] (fun c hc => absurd hc (List.not_mem_nil _))
    (fun c hc => absurd hc (List.not_mem_nil _))

theorem LengthInvariant_single (p : ik_vec2) (l : ℝ) (c : ik_joint)
    (hd : vdist c.pos p = c.len) (hc : LengthInvariant c) :
    LengthInvariant (.mk p l [c]) :=
  LengthInvariant.mk p l [c]
    (fun c' hc' => by rw [List.mem_singleton] at hc'; subst hc'; exact hd)
    (fun c' hc' => by rw [List.mem_singleton] at hc'; subst hc'; exact hc)

theorem ik_solve_eval_ten :
    ik_solve (.mk ⟨0, 0⟩ 5 []) [{ pos := ⟨0, 0⟩, len := 5, pre := [], post := [] }]
      10 0 = some (.mk ⟨0, 0⟩ 5 [.mk ⟨5, 0⟩ 5 []], []) := by
  rw [ik_solve_two_joint]
  have hmv : ik_move_within_dist ⟨10, 0⟩ 5 ⟨0, 0⟩ = (⟨5, 0⟩ : ik_vec2) :=
    ik_move_within_dist_eval _ _ _ 10 _
      (length_eval _ _ _ (by norm_num) (by norm_num)) (by norm_num)
      (by norm_num) (by norm_num)
  rw [hmv]

theorem ik_solve_eval_three :
    ik_solve (.mk ⟨5, 0⟩ 5 []) [{ pos := ⟨0, 0⟩, len := 5, pre := [], post := [] }]
      3 0 = some (.mk ⟨0, 0⟩ 5 [.mk ⟨5, 0⟩ 5 []], []) := by
  rw [ik_solve_two_joint]
  have hmv : ik_move_within_dist ⟨3, 0⟩ 5 ⟨0, 0⟩ = (⟨5, 0⟩ : ik_vec2) :=
    ik_move_within_dist_eval _ _ _ 3 _
      (length_eval _ _ _ (by norm_num) (by norm_num)) (by norm_num)
      (by norm_num) (by norm_num)
  rw [hmv]

/-- Claim C4 (amended): on the 2-joint chain with both joints created at the
origin and leaf segment length 5, `ik_solve(leaf, 10, 0)` leaves the root at
`(0,0)` and the leaf at `(5,0)` — the chain's total reach is the single
segment of length 5, so the chain fully extends toward the unreachable
target rather than reaching `(10,0)`. -/
theorem ik_solve_example_ten_zero :
    ik_solve (.mk ⟨0, 0⟩ 5 []) [{ pos := ⟨0, 0⟩, len := 5, pre := [], post := [] }]
      10 0 = some (.mk ⟨0, 0⟩ 5 [.mk ⟨5, 0⟩ 5 []], []) := ik_solve_eval_ten

/-- Claim C4 counterexample: the same call does not leave the leaf at `(10,0)`
as the claim states — the resulting tree differs from the claimed one. -/
theorem ik_solve_example_ten_zero_fails :
    ik_solve (.mk ⟨0, 0⟩ 5 []) [{ pos := ⟨0, 0⟩, len := 5, pre := [], post := [] }]
      10 0 = some (.mk ⟨0, 0⟩ 5 [.mk ⟨5, 0⟩ 5 []], []) ∧
    ik_joint.mk (⟨0, 0⟩ : ik_vec2) 5 [.mk ⟨5, 0⟩ 5 []] ≠
      .mk ⟨0, 0⟩ 5 [.mk ⟨10, 0⟩ 5 []] := by
  refine ⟨ik_solve_eval_ten, ?_⟩
  intro h
  simp only [ik_joint.mk.injEq, List.cons.injEq, ik_vec2.mk.injEq] at h
  norm_num at h

/-- Claim C1 counterexample: on the 2-joint chain (root `(0,0)`, leaf `(5,0)`,
segment length 5, satisfying the length invariant), the target `(3,0)` is
within the chain's total reachable length, yet `ik_solve(leaf, 3, 0)` leaves
the leaf at `(5,0)`, not at the target. -/
theorem ik_solve_reachable_target_fails :
    LengthInvariant (plugFrames (.mk ⟨5, 0⟩ 5 [])
      [{ pos := ⟨0, 0⟩, len := 5, pre := [], post := [] }]) ∧
    vdist ⟨3, 0⟩ ⟨0, 0⟩ ≤ 5 ∧
    ik_solve (.mk ⟨5, 0⟩ 5 []) [{ pos := ⟨0, 0⟩, len := 5, pre := [], post := [] }]
      3 0 = some (.mk ⟨0, 0⟩ 5 [.mk ⟨5, 0⟩ 5 []], []) ∧
    ik_vec2.mk 5 0 ≠ ⟨3, 0⟩ := by
  refine ⟨?_, ?_, ik_solve_eval_three, ?_⟩
  · rw [show plugFrames (.mk ⟨5, 0⟩ 5 [])
        [{ pos := ⟨0, 0⟩, len := 5, pre := [], post := [] }] =
        .mk ⟨0, 0⟩ 5 [.mk ⟨5, 0⟩ 5 []] from rfl]
    exact LengthInvariant_single _ _ _
      (by rw [ik_joint.pos_mk, ik_joint.len_mk]
          exact vdist_eval _ _ _ (by norm_num) (by norm_num))
      (LengthInvariant_leaf _ _)
  · rw [vdist_eval _ _ 3 (by norm_num) (by norm_num)]
    norm_num
  · intro h
    rw [ik_vec2.mk.injEq] at h
    exact absurd h.1 (by norm_num)

theorem ik_solve_eval_snap :
    ik_solve (.mk ⟨0, 2⟩ 1 [])
      [{ pos := ⟨0, 1⟩, len := 1, pre := [], post := [] },
       { pos := ⟨0, 0⟩, len := 1, pre := [], post := [] }] 0 (-1) =
      some (.mk ⟨0, 0⟩ 1 [.mk ⟨0, 0⟩ 1 [.mk ⟨0, -1⟩ 1 []]], []) := by
  rw [ik_solve_three_joint]
  have hm1 : ik_move_within_dist ⟨0, 1⟩ 1 ⟨0, -1⟩ = (⟨0, 0⟩ : ik_vec2) :=
    ik_move_within_dist_eval _ _ _ 2 _
      (length_eval _ _ _ (by norm_num) (by norm_num)) (by norm_num)
      (by norm_num) (by norm_num)
  rw [hm1]
  have hm2 : ik_move_within_dist ⟨0, 0⟩ 1 ⟨0, 0⟩ = (⟨0, 0⟩ : ik_vec2) :=
    ik_move_within_dist_snap _ _
      ((length_eq_zero_iff _ _).mpr ⟨by norm_num, by norm_num⟩) 1
  rw [hm2]
  have hm3 : ik_move_within_dist ⟨0, -1⟩ 1 ⟨0, 0⟩ = (⟨0, -1⟩ : ik_vec2) :=
    ik_move_within_dist_eval _ _ _ 1 _
      (length_eval _ _ _ (by norm_num) (by norm_num)) (by norm_num)
      (by norm_num) (by norm_num)
  rw [hm3]

/-- Claim C2 counterexample: a 3-joint chain satisfying the exact length
invariant for which one `ik_solve` call yields a tree that violates it: the
middle joint is snapped exactly onto the root (distance 0, segment length
1) by the degenerate branch of `ik_move_within_dist`. -/
theorem ik_solve_length_preservation_fails :
    LengthInvariant (plugFrames (.mk ⟨0, 2⟩ 1 [])
      [{ pos := ⟨0, 1⟩, len := 1, pre := [], post := [] },
       { pos := ⟨0, 0⟩, len := 1, pre := [], post := [] }]) ∧
    ik_solve (.mk ⟨0, 2⟩ 1 [])
      [{ pos := ⟨0, 1⟩, len := 1, pre := [], post := [] },
       { pos := ⟨0, 0⟩, len := 1, pre := [], post := [] }] 0 (-1) =
      some (.mk ⟨0, 0⟩ 1 [.mk ⟨0, 0⟩ 1 [.mk ⟨0, -1⟩ 1 []]], []) ∧
    ¬ LengthInvariant (.mk ⟨0, 0⟩ 1 [.mk ⟨0, 0⟩ 1 [.mk ⟨0, -1⟩ 1 []]]) := by
  refine ⟨?_, ik_solve_eval_snap, ?_⟩
  · rw [show plugFrames (.mk ⟨0, 2⟩ 1 [])
        [{ pos := ⟨0, 1⟩, len := 1, pre := [], post := [] },
         { pos := ⟨0, 0⟩, len := 1, pre := [], post := [] }] =
        .mk ⟨0, 0⟩ 1 [.mk ⟨0, 1⟩ 1 [.mk ⟨0, 2⟩ 1 []]] from rfl]
    exact LengthInvariant_single _ _ _
      (by rw [ik_joint.pos_mk, ik_joint.len_mk]
          exact vdist_eval _ _ _ (by norm_num) (by norm_num))
      (LengthInvariant_single _ _ _
        (by rw [ik_joint.pos_mk, ik_joint.len_mk]
            exact vdist_eval _ _ _ (by norm_num) (by norm_num))
        (LengthInvariant_leaf _ _))
  · intro h
    cases h with
    | mk _ _ _ hdist _ =>
      have hd := hdist (.mk ⟨0, 0⟩ 1 [.mk ⟨0, -1⟩ 1 []])
        (List.mem_singleton.mpr rfl)
      rw [ik_joint.pos_mk, ik_joint.len_mk,
        vdist_eval _ _ 0 (by norm_num) (by norm_num)] at hd
      exact absurd hd (by norm_num)

theorem ik_solve_eval_bent :
    ik_solve (.mk ⟨321 / 25, 0⟩ (96 / 25) [])
      [{ pos := ⟨9, 0⟩, len := 9, pre := [], post := [] },
       { pos := ⟨0, 0⟩, len := 1, pre := [], post := [] }] 9 (396 / 25) =
      some (.mk ⟨0, 0⟩ 1 [.mk ⟨27 / 5, 36 / 5⟩ 9
        [.mk ⟨447 / 65, 3492 / 325⟩ (96 / 25) []]], []) := by
  rw [ik_solve_three_joint]
  have hm1 : ik_move_within_dist ⟨9, 0⟩ (96 / 25) ⟨9, 396 / 25⟩ =
      (⟨9, 12⟩ : ik_vec2) :=
    ik_move_within_dist_eval _ _ _ (396 / 25) _
      (length_eval _ _ _ (by norm_num) (by norm_num)) (by norm_num)
      (by norm_num) (by norm_num)
  rw [hm1]
  have hm2 : ik_move_within_dist ⟨9, 12⟩ 9 ⟨0, 0⟩ = (⟨27 / 5, 36 / 5⟩ : ik_vec2) :=
    ik_move_within_dist_eval _ _ _ 15 _
      (length_eval _ _ _ (by norm_num) (by norm_num)) (by norm_num)
      (by norm_num) (by norm_num)
  rw [hm2]
  have hm3 : ik_move_within_dist ⟨9, 396 / 25⟩ (96 / 25) ⟨27 / 5, 36 / 5⟩ =
      (⟨447 / 65, 3492 / 325⟩ : ik_vec2) :=
    ik_move_within_dist_eval _ _ _ (234 / 25) _
      (length_eval _ _ _ (by norm_num) (by norm_num)) (by norm_num)
      (by norm_num) (by norm_num)
  rw [hm3]

/-- Claim C3 counterexample: a 3-joint chain satisfying the length invariant
with a target strictly beyond its total reachable length `9 + 96/25`, for
which one `ik_solve` call does not leave the joints on the straight line
from the root through the target: the middle joint ends at `(27/5, 36/5)`,
whose cross product with the root-to-target direction is nonzero. -/
theorem ik_solve_straight_line_fails :
    LengthInvariant (plugFrames (.mk ⟨321 / 25, 0⟩ (96 / 25) [])
      [{ pos := ⟨9, 0⟩, len := 9, pre := [], post := [] },
       { pos := ⟨0, 0⟩, len := 1, pre := [], post := [] }]) ∧
    9 + 96 / 25 < vdist ⟨9, 396 / 25⟩ ⟨0, 0⟩ ∧
    ik_solve (.mk ⟨321 / 25, 0⟩ (96 / 25) [])
      [{ pos := ⟨9, 0⟩, len := 9, pre := [], post := [] },
       { pos := ⟨0, 0⟩, len := 1, pre := [], post := [] }] 9 (396 / 25) =
      some (.mk ⟨0, 0⟩ 1 [.mk ⟨27 / 5, 36 / 5⟩ 9
        [.mk ⟨447 / 65, 3492 / 325⟩ (96 / 25) []]], []) ∧
    (27 / 5 - 0 : ℝ) * (396 / 25 - 0) ≠ (36 / 5 - 0) * (9 - 0) := by
  refine ⟨?_, ?_, ik_solve_eval_bent, by norm_num⟩
  · rw [show plugFrames (.mk ⟨321 / 25, 0⟩ (96 / 25) [])
        [{ pos := ⟨9, 0⟩, len := 9, pre := [], post := [] },
         { pos := ⟨0, 0⟩, len := 1, pre := [], post := [] }] =
        .mk ⟨0, 0⟩ 1 [.mk ⟨9, 0⟩ 9 [.mk ⟨321 / 25, 0⟩ (96 / 25) []]] from rfl]
    exact LengthInvariant_single _ _ _
      (by rw [ik_joint.pos_mk, ik_joint.len_mk]
          exact vdist_eval _ _ _ (by norm_num) (by norm_num))
      (LengthInvariant_single _ _ _
        (by rw [ik_joint.pos_mk, ik_joint.len_mk]
            exact vdist_eval _ _ _ (by norm_num) (by norm_num))
        (LengthInvariant_leaf _ _))
  · have hv : vdist (⟨9, 396 / 25⟩ : ik_vec2) ⟨0, 0⟩ =
        Real.sqrt (207441 / 625) := by
      rw [vdist, length]
      norm_num
    rw [hv, show (9 : ℝ) + 96 / 25 = 321 / 25 by norm_num,
      Real.lt_sqrt (by norm_num)]
    norm_num

/-- Witness for the amended claim C1 at the concrete instance of the spec:
root `(0,0)`, segment length 5, target `(5,0)` at distance exactly 5. -/
theorem ik_solve_two_joint_exact_reach_witness :
    vdist ⟨5, 0⟩ ⟨0, 0⟩ = 5 ∧
    ik_solve (.mk ⟨0, 0⟩ 5 []) [{ pos := ⟨0, 0⟩, len := 5, pre := [], post := [] }]
      5 0 = some (.mk ⟨0, 0⟩ 5 [.mk ⟨5, 0⟩ 5 []], []) :=
  ⟨vdist_eval _ _ _ (by norm_num) (by norm_num),
   ik_solve_two_joint_exact_reach ⟨0, 0⟩ ⟨0, 0⟩ 5 5 5 0
     (vdist_eval _ _ _ (by norm_num) (by norm_num))⟩

/-- Witness for the amended claim C3: length-5 chain at the origin, target
`(20,0)` beyond reach; the leaf extends straight to distance 5. -/
theorem ik_solve_two_joint_unreachable_witness :
    (0 : ℝ) ≤ 5 ∧ 5 < vdist ⟨20, 0⟩ ⟨0, 0⟩ ∧
    (ik_solve (.mk ⟨0, 0⟩ 5 []) [{ pos := ⟨0, 0⟩, len := 5, pre := [], post := [] }]
        20 0 =
      some (.mk ⟨0, 0⟩ 5
        [.mk ⟨(0 : ℝ) + 5 * (20 - 0) / vdist ⟨20, 0⟩ ⟨0, 0⟩,
             (0 : ℝ) + 5 * (0 - 0) / vdist ⟨20, 0⟩ ⟨0, 0⟩⟩ 5 []], []) ∧
      vdist ⟨(0 : ℝ) + 5 * (20 - 0) / vdist ⟨20, 0⟩ ⟨0, 0⟩,
            (0 : ℝ) + 5 * (0 - 0) / vdist ⟨20, 0⟩ ⟨0, 0⟩⟩ ⟨0, 0⟩ = 5) := by
  have hfar : (5 : ℝ) < vdist ⟨20, 0⟩ ⟨0, 0⟩ := by
    rw [vdist_eval _ _ 20 (by norm_num) (by norm_num)]
    norm_num
  exact ⟨by norm_num, hfar,
    ik_solve_two_joint_unreachable ⟨0, 0⟩ ⟨0, 0⟩ 5 5 20 0 (by norm_num) hfar⟩

/-- Witness for claim C2 (amended): a translation of a 2-joint tree keeps the
exact invariant, and a full solve call on a straight 3-joint chain with an
out-of-reach target completes with the weak invariant. -/
theorem ik_solve_length_preservation_witness :
    (LengthInvariant (.mk ⟨0, 0⟩ 1 [.mk ⟨1, 0⟩ 1 []]) ∧
      LengthInvariant (ik_translate (.mk ⟨0, 0⟩ 1 [.mk ⟨1, 0⟩ 1 []]) 3 4)) ∧
    (LengthInvariant (plugFrames (.mk ⟨2, 0⟩ 1 [])
        [{ pos := ⟨1, 0⟩, len := 1, pre := [], post := [] },
         { pos := ⟨0, 0⟩, len := 1, pre := [], post := [] }]) ∧
      ik_solve (.mk ⟨2, 0⟩ 1 [])
        [{ pos := ⟨1, 0⟩, len := 1, pre := [], post := [] },
         { pos := ⟨0, 0⟩, len := 1, pre := [], post := [] }] 3 0 =
        some (.mk ⟨0, 0⟩ 1 [.mk ⟨1, 0⟩ 1 [.mk ⟨2, 0⟩ 1 []]], []) ∧
      WeakLengthInvariant (.mk ⟨0, 0⟩ 1 [.mk ⟨1, 0⟩ 1 [.mk ⟨2, 0⟩ 1 []]])) := by
  have hinv1 : LengthInvariant (.mk (⟨0, 0⟩ : ik_vec2) 1 [.mk ⟨1, 0⟩ 1 []]) :=
    LengthInvariant_single _ _ _
      (by rw [ik_joint.pos_mk, ik_joint.len_mk]
          exact vdist_eval _ _ _ (by norm_num) (by norm_num))
      (LengthInvariant_leaf _ _)
  have hinv : LengthInvariant (plugFrames (.mk ⟨2, 0⟩ 1 [])
      [{ pos := ⟨1, 0⟩, len := 1, pre := [], post := [] },
       { pos := ⟨0, 0⟩, len := 1, pre := [], post := [] }]) := by
    rw [show plugFrames (.mk ⟨2, 0⟩ 1 [])
        [{ pos := ⟨1, 0⟩, len := 1, pre := [], post := [] },
         { pos := ⟨0, 0⟩, len := 1, pre := [], post := [] }] =
        .mk ⟨0, 0⟩ 1 [.mk ⟨1, 0⟩ 1 [.mk ⟨2, 0⟩ 1 []]] from rfl]
    exact LengthInvariant_single _ _ _
      (by rw [ik_joint.pos_mk, ik_joint.len_mk]
          exact vdist_eval _ _ _ (by norm_num) (by norm_num))
      (LengthInvariant_single _ _ _
        (by rw [ik_joint.pos_mk, ik_joint.len_mk]
            exact vdist_eval _ _ _ (by norm_num) (by norm_num))
        (LengthInvariant_leaf _ _))
  have heval : ik_solve (.mk ⟨2, 0⟩ 1 [])
      [{ pos := ⟨1, 0⟩, len := 1, pre := [], post := [] },
       { pos := ⟨0, 0⟩, len := 1, pre := [], post := [] }] 3 0 =
      some (.mk ⟨0, 0⟩ 1 [.mk ⟨1, 0⟩ 1 [.mk ⟨2, 0⟩ 1 []]], []) := by
    rw [ik_solve_three_joint]
    have hm1 : ik_move_within_dist ⟨1, 0⟩ 1 ⟨3, 0⟩ = (⟨2, 0⟩ : ik_vec2) :=
      ik_move_within_dist_eval _ _ _ 2 _
        (length_eval _ _ _ (by norm_num) (by norm_num)) (by norm_num)
        (by norm_num) (by norm_num)
    rw [hm1]
    have hm2 : ik_move_within_dist ⟨2, 0⟩ 1 ⟨0, 0⟩ = (⟨1, 0⟩ : ik_vec2) :=
      ik_move_within_dist_eval _ _ _ 2 _
        (length_eval _ _ _ (by norm_num) (by norm_num)) (by norm_num)
        (by norm_num) (by norm_num)
    rw [hm2]
    have hm3 : ik_move_within_dist ⟨3, 0⟩ 1 ⟨1, 0⟩ = (⟨2, 0⟩ : ik_vec2) :=
      ik_move_within_dist_eval _ _ _ 2 _
        (length_eval _ _ _ (by norm_num) (by norm_num)) (by norm_num)
        (by norm_num) (by norm_num)
    rw [hm3]
  exact ⟨⟨hinv1, ik_solve_length_preservation.1 _ 3 4 hinv1⟩,
    ⟨hinv, heval, ik_solve_length_preservation.2 _ _ 3 0 _ [] hinv heval⟩⟩

/-- Witness for claim C7: on the straight 2-joint example the solve call
completes and the stack is empty at the boundaries. -/
theorem ik_solve_stack_balance_witness :
    ik_solve (.mk ⟨0, 0⟩ 5 []) [{ pos := ⟨0, 0⟩, len := 5, pre := [], post := [] }]
      10 0 = some (.mk ⟨0, 0⟩ 5 [.mk ⟨5, 0⟩ 5 []], []) ∧
    (([] : List ℕ) = [] ∧
      (ik_solve_back (.mk ⟨0, 0⟩ 5 [])
          [{ pos := ⟨0, 0⟩, len := 5, pre := [], post := [] }] ⟨10, 0⟩).2.2.length -
        ([] : List ℕ).length =
      (ik_solve_back (.mk ⟨0, 0⟩ 5 [])
          [{ pos := ⟨0, 0⟩, len := 5, pre := [], post := [] }] ⟨10, 0⟩).2.2.length) :=
  ⟨ik_solve_eval_ten, ik_solve_stack_balance _ _ _ _ _ _ ik_solve_eval_ten⟩

/-- Witness for claim C9: an effected joint with two children makes the solve
call hit the NULL path child. -/
theorem ik_solve_multi_child_crash_witness :
    (ik_joint.mk (⟨0, 0⟩ : ik_vec2) 1 [.mk ⟨1, 0⟩ 1 [], .mk ⟨0, 1⟩ 1 []]).children.length > 1 ∧
    ik_solve (.mk ⟨0, 0⟩ 1 [.mk ⟨1, 0⟩ 1 [], .mk ⟨0, 1⟩ 1 []]) [] 1 0 = none := by
  have h : (ik_joint.mk (⟨0, 0⟩ : ik_vec2) 1
      [.mk ⟨1, 0⟩ 1 [], .mk ⟨0, 1⟩ 1 []]).children.length > 1 := by
    rw [ik_joint.children_mk]
    norm_num
  exact ⟨h, ik_solve_multi_child_crash _ [] 1 0 h⟩

/-- Witness for claim C6: moving `(3,4)` to within distance 10 of the origin
lands exactly at distance 10. -/
theorem ik_move_within_dist_contract_witness :
    (0 : ℝ) ≤ 10 ∧ (⟨3, 4⟩ : ik_vec2) ≠ ⟨0, 0⟩ ∧
    vdist (ik_move_within_dist ⟨3, 4⟩ 10 ⟨0, 0⟩) ⟨0, 0⟩ = 10 := by
  have hne : (⟨3, 4⟩ : ik_vec2) ≠ ⟨0, 0⟩ := by
    intro h
    rw [ik_vec2.mk.injEq] at h
    exact absurd h.1 (by norm_num)
  exact ⟨by norm_num, hne,
    ((ik_move_within_dist_contract ⟨3, 4⟩ ⟨0, 0⟩ 10 (by norm_num)).2 hne).1⟩

/-- Witness for claim C8: a full one-slot parent rejects the attach unmodified;
a parent with an occupied slot followed by a free one stores the child in
the free slot and sets its parent reference. -/
theorem ik_attach_joint_contract_witness :
    (∀ s ∈ ([some 7] : List (Option ℕ)), s ≠ none) ∧
    ik_attach_joint_state 9 1 ([some 7] : List (Option ℕ)) none =
      (false, [some 7], none) ∧
    none ∈ ([some 7, none] : List (Option ℕ)) ∧
    (∃ p₁ p₂, ([some 7, none] : List (Option ℕ)) = p₁ ++ none :: p₂ ∧
      (∀ s ∈ p₁, s ≠ none) ∧
      ik_attach_joint_state 9 1 ([some 7, none] : List (Option ℕ)) none =
        (true, p₁ ++ some 9 :: p₂, some 1)) := by
  have hfull : ∀ s ∈ ([some 7] : List (Option ℕ)), s ≠ none := by decide
  have hfree : none ∈ ([some 7, none] : List (Option ℕ)) := by decide
  exact ⟨hfull, (ik_attach_joint_contract 9 1 [some 7] none).1 hfull, hfree,
    (ik_attach_joint_contract 9 1 [some 7, none] none).2 hfree⟩

/-- Claim C5: the branch alignments applied to un-reached sibling subtrees
during a solve (`ik_align_branch`, via `ik_align_branch_precalc`, and
`ik_align_branch_only_translate`) are rigid: the pairwise distance between
any two joints of the aligned subtree is exactly the pairwise distance
between the corresponding joints before alignment; only the subtree's
placement changes. -/
theorem ik_align_branch_rigid (pv f t : ik_vec2) (ox oy : ℝ) (j : ik_joint)
    (i k : ℕ) :
    (∀ p q p' q', j.positions.get? i = some p → j.positions.get? k = some q →
      (ik_align_branch pv f t j).positions.get? i = some p' →
      (ik_align_branch pv f t j).positions.get? k = some q' →
      vdist p' q' = vdist p q) ∧
    (∀ p q p' q', j.positions.get? i = some p → j.positions.get? k = some q →
      (ik_align_branch_only_translate ox oy j).positions.get? i = some p' →
      (ik_align_branch_only_translate ox oy j).positions.get? k = some q' →
      vdist p' q' = vdist p q) := by
  constructor
  · intro p q p' q' hp hq hp' hq'
    rw [ik_align_branch_positions, List.get?_map, hp, Option.map_some'] at hp'
    rw [ik_align_branch_positions, List.get?_map, hq, Option.map_some'] at hq'
    cases hp'
    cases hq'
    exact ik_align_branch_apply_vdist pv f t p q
  · intro p q p' q' hp hq hp' hq'
    rw [ik_align_branch_only_translate_positions, List.get?_map, hp,
      Option.map_some'] at hp'
    rw [ik_align_branch_only_translate_positions, List.get?_map, hq,
      Option.map_some'] at hq'
    cases hp'
    cases hq'
    exact vdist_translate p q ox oy


/-- Witness for claim C5: a two-joint branch aligned by a quarter turn about
the origin (`from = (1,0)`, `to = (0,1)`) and by a translation keeps its
internal distance. -/
theorem ik_align_branch_rigid_witness :
    vdist ⟨-1, 0⟩ ⟨-1, 1⟩ = vdist ⟨1, 0⟩ ⟨2, 0⟩ ∧
    vdist ⟨4, 4⟩ ⟨5, 4⟩ = vdist ⟨1, 0⟩ ⟨2, 0⟩ := by
  have hp0 : (ik_joint.mk (⟨1, 0⟩ : ik_vec2) 1 [.mk ⟨2, 0⟩ 1 []]).positions.get? 0 =
      some ⟨1, 0⟩ := by
    simp [ik_joint.positions, ik_joint.positions_list]
  have hp1 : (ik_joint.mk (⟨1, 0⟩ : ik_vec2) 1 [.mk ⟨2, 0⟩ 1 []]).positions.get? 1 =
      some ⟨2, 0⟩ := by
    simp [ik_joint.positions, ik_joint.positions_list]
  have hC : (ik_branch_matrix ⟨1, 0⟩ ⟨0, 1⟩).C = 0 := by
    rw [ik_branch_matrix_C]
    norm_num
  have hS : (ik_branch_matrix ⟨1, 0⟩ ⟨0, 1⟩).S = 1 := by
    rw [ik_branch_matrix_S, hC]
    norm_num
  have hP : (ik_branch_matrix ⟨1, 0⟩ ⟨0, 1⟩).P = 1 := by
    rw [ik_branch_matrix_P]
    norm_num
  constructor
  · refine (ik_align_branch_rigid ⟨0, 0⟩ ⟨1, 0⟩ ⟨0, 1⟩ 3 4
      (.mk ⟨1, 0⟩ 1 [.mk ⟨2, 0⟩ 1 []]) 0 1).1 ⟨1, 0⟩ ⟨2, 0⟩ ⟨-1, 0⟩ ⟨-1, 1⟩
      hp0 hp1 ?_ ?_
    · rw [ik_align_branch_positions, List.get?_map, hp0, Option.map_some',
        applyAlignPos, hC, hS, hP]
      simp only [Option.some.injEq]
      ext <;> norm_num
    · rw [ik_align_branch_positions, List.get?_map, hp1, Option.map_some',
        applyAlignPos, hC, hS, hP]
      simp only [Option.some.injEq]
      ext <;> norm_num
  · refine (ik_align_branch_rigid ⟨0, 0⟩ ⟨1, 0⟩ ⟨0, 1⟩ 3 4
      (.mk ⟨1, 0⟩ 1 [.mk ⟨2, 0⟩ 1 []]) 0 1).2 ⟨1, 0⟩ ⟨2, 0⟩ ⟨4, 4⟩ ⟨5, 4⟩
      hp0 hp1 ?_ ?_
    · rw [ik_align_branch_only_translate_positions, List.get?_map, hp0,
        Option.map_some']
      simp only [Option.some.injEq]
      ext <;> norm_num
    · rw [ik_align_branch_only_translate_positions, List.get?_map, hp1,
        Option.map_some']
      simp only [Option.some.injEq]
      ext <;> norm_num
